import Mathlib

/-!
Verification development for the `@observoid/vector-shapes` SVG path codec
(`src/index.ts`).

The embedding models:
 * JS numbers flowing through the parser/serializer/inverter as `JSNum :=
   Option ℚ`, where `none` stands for IEEE `NaN` (the only non-finite value
   reachable from the tokenized path text, since `parseFloat` of a
   letter-free token can only yield a finite decimal or `NaN`).  The
   arithmetic the parser performs on these values (addition, subtraction,
   doubling) is exact on the integer/decimal inputs exercised by the
   theorems, and `NaN` propagation and JS `===`/`!==` semantics are modelled
   faithfully (`NaN === NaN` is `false`).
 * the arc-to-cubic converter (`curvifyArcCommands`) over the real numbers,
   since it uses `sin`, `cos`, `acos`, `sqrt`; exact real arithmetic is the
   standard idealization of its floating-point arithmetic, and the concrete
   theorems below only depend on quantities that are far from any rounding
   threshold.
 * the rxjs streams as lists of emitted items plus an optional terminal
   error: after `subscriber.error` every later `next`/`error`/`complete` is
   ignored by rxjs, so a run is faithfully described by the items emitted
   before the first error and the terminal status.

Strings are modelled as `List Char`; the regular expressions of the source
are compiled by hand to `takeWhile`/`dropWhile` scans (each such function
carries a comment with the regex it implements, and the backtracking
analysis justifying the deterministic form).
-/

/-- A JS number as seen by this library: a finite (rational) value or NaN. -/
def JSNum := Option ℚ
deriving DecidableEq, Repr

/-- Finite JS number. -/
def JSNum.fin (q : ℚ) : JSNum := some q

/-- The JS NaN value. -/
def JSNum.nan : JSNum := none

/-- Rational addition written through `mkRat` so that the kernel can
evaluate it on literals (the result is the same normalized rational as
`a + b`). -/
def ratAdd (a b : ℚ) : ℚ := mkRat (a.num * b.den + b.num * a.den) (a.den * b.den)

/-- Rational subtraction through `mkRat` (same value as `a - b`). -/
def ratSub (a b : ℚ) : ℚ := mkRat (a.num * b.den - b.num * a.den) (a.den * b.den)

/-- JS `+` on numbers: NaN propagates. -/
def JSNum.add : JSNum → JSNum → JSNum
  | some a, some b => some (ratAdd a b)
  | _, _ => none

/-- JS `-` on numbers: NaN propagates. -/
def JSNum.sub : JSNum → JSNum → JSNum
  | some a, some b => some (ratSub a b)
  | _, _ => none

/-- JS `===` on numbers: `NaN === x` is false for every `x` (including NaN). -/
def JSNum.seq : JSNum → JSNum → Bool
  | some a, some b => a = b
  | _, _ => false

/-- A 2-D point (`PathCommand.Point`). -/
structure Pt where
  x : JSNum
  y : JSNum
deriving DecidableEq, Repr

/-- Pointwise JS `===` comparison of two points (used by `invertSubPaths`
as `x === x' && y === y'`; its negation `x !== x' || y !== y'` is `!ptSEq`). -/
def ptSEq (p q : Pt) : Bool := JSNum.seq p.x q.x && JSNum.seq p.y q.y

/-- A parsed path segment (`PathCommand`): tagged union of Line,
QuadraticCurve, CubicCurve and Arc.  The optional JS booleans
`largeArcFlag?`/`sweepFlag?` are modelled as `Bool`; every use in the
source coerces them (`!!`, `?:`, `!`), under which `undefined` and `false`
are indistinguishable. -/
inductive Cmd where
  | line (toPoint : Pt)
  | quad (cp toPoint : Pt)
  | cubic (c1 c2 toPoint : Pt)
  | arc (rx ry rot : JSNum) (large sweep : Bool) (toPoint : Pt)
deriving DecidableEq, Repr

/-- The `toPoint` field common to all `PathCommand` variants. -/
def Cmd.toPoint : Cmd → Pt
  | .line p => p
  | .quad _ p => p
  | .cubic _ _ p => p
  | .arc _ _ _ _ _ p => p

/-- A parsed subpath (`SubPath`): start point, materialized command list,
`closed` flag and the optional cached serialization `svgPathData`. -/
structure SubPath where
  startPoint : Pt
  commands : List Cmd
  closed : Bool
  svgPathData : Option (List Char)
deriving DecidableEq, Repr

/-- Errors terminating a parse pipeline.  `typeError` stands for the JS
`TypeError` raised by dereferencing a `null` regex match or an
out-of-bounds array element. -/
inductive Err where
  | invalidParams (tok : List Char)
  | invalidCommand (tok : List Char)
  | expectedMove (c : Char)
  | typeError
deriving DecidableEq, Repr

/-! ### Character classes of the source's regular expressions -/

/-- JS regex `\s` (the ASCII part; the inputs in play are ASCII). -/
def isWsChar (c : Char) : Bool :=
  c = ' ' || c = '\t' || c = '\n' || c = '\r' || c = '\x0b' || c = '\x0c'

/-- The class `[a-df-z]` under the `i` flag: any letter except `e`/`E`
(`e` is excluded so exponents survive inside parameter text). -/
def isCmdLetter (c : Char) : Bool :=
  ('a' ≤ c.toLower && c.toLower ≤ 'z') && c.toLower ≠ 'e'

/-- The class `[zm]` under the `i` flag. -/
def isZM (c : Char) : Bool := c.toLower = 'z' || c.toLower = 'm'

/-- Case-insensitive test for `m`. -/
def isMChar (c : Char) : Bool := c.toLower = 'm'

/-! ### `parseFloat` and parameter splitting -/

/-- Digit-run value: `digitsVal ds = (value, number of digits)`. -/
def digitsVal : List Char → ℕ × ℕ
  | [] => (0, 0)
  | c :: cs =>
    let (v, n) := digitsVal cs
    ((c.toNat - '0'.toNat) * 10 ^ n + v, n + 1)

/-- JS `parseFloat` on a token: skip leading whitespace, read an optional
sign, a decimal mantissa (`digits`, `digits.digits`, or `.digits`) and an
optional exponent (`e`/`E`, optional sign, at least one digit; an `e` not
followed by digits is not consumed).  The longest valid prefix is
converted; if there is no valid mantissa the result is NaN (`none`).
(`parseFloat` also accepts the literal `Infinity`, but tokens reaching it
here are letter-free apart from `e`/`E`, so that branch is unreachable.) -/
def parseFloatJS (s : List Char) : JSNum :=
  let s := s.dropWhile isWsChar
  let (sgn, s) : ℤ × List Char :=
    match s with
    | '-' :: t => (-1, t)
    | '+' :: t => (1, t)
    | _ => (1, s)
  let intDigits := s.takeWhile Char.isDigit
  let s1 := s.dropWhile Char.isDigit
  let (fracDigits, s2) : List Char × List Char :=
    match s1 with
    | '.' :: t => (t.takeWhile Char.isDigit, t.dropWhile Char.isDigit)
    | _ => ([], s1)
  if intDigits = [] ∧ fracDigits = [] then JSNum.nan
  else
    let mantNum : ℕ := (digitsVal intDigits).1 * 10 ^ fracDigits.length + (digitsVal fracDigits).1
    let mantDen : ℕ := 10 ^ fracDigits.length
    let expv : Bool × ℕ :=
      match s2 with
      | 'e' :: t | 'E' :: t =>
        let (eneg, t) : Bool × List Char :=
          match t with
          | '-' :: u => (true, u)
          | '+' :: u => (false, u)
          | _ => (false, t)
        let eds := t.takeWhile Char.isDigit
        if eds = [] then (false, 0) else (eneg, (digitsVal eds).1)
      | _ => (false, 0)
    JSNum.fin (if expv.1 then mkRat (sgn * mantNum) (mantDen * 10 ^ expv.2)
      else mkRat (sgn * mantNum * 10 ^ expv.2) mantDen)

/-- One separator match of `/\s*,\s*|\s+/` at the head of `s`: returns the
remainder after the separator, or `none` if no separator starts here.
(The first alternative `\s*,\s*` wins when a comma follows the whitespace
run; otherwise a nonempty whitespace run matches `\s+`.) -/
def paramSepAt (s : List Char) : Option (List Char) :=
  let w := s.takeWhile isWsChar
  let r := s.dropWhile isWsChar
  match r with
  | ',' :: r2 => some (r2.dropWhile isWsChar)
  | _ => if w = [] then none else some r

/-- Fuelled worker for `String.prototype.split(/\s*,\s*|\s+/g)`:
leftmost-first scanning, tokens are the substrings between separator
matches (empty tokens included). -/
def splitParamsAux : ℕ → List Char → List Char → List (List Char)
  | 0, cur, _ => [cur.reverse]
  | _ + 1, cur, [] => [cur.reverse]
  | fuel + 1, cur, s@(c :: cs) =>
    match paramSepAt s with
    | some rest => cur.reverse :: splitParamsAux fuel [] rest
    | none => splitParamsAux fuel (c :: cur) cs

/-- JS `str.split(/\s*,\s*|\s+/g)`.  On `""` this yields `[""]`, as in JS. -/
def splitParams (s : List Char) : List (List Char) :=
  splitParamsAux (s.length + 1) [] s

/-- JS `String.prototype.trim`. -/
def trimJS (s : List Char) : List Char :=
  ((s.dropWhile isWsChar).reverse.dropWhile isWsChar).reverse

/-- `match[2].trim().split(/\s*,\s*|\s+/g).map(parseFloat)`. -/
def parseParams (s : List Char) : List JSNum :=
  (splitParams (trimJS s)).map parseFloatJS

/-! ### The segment parser (`pathCommands`'s `onCompleteCommand`) -/

/-- Running parser state: `lastPoint`, `qMirror`, `cMirror`
(lines 102–104 of the source; all three start at the start point). -/
structure PState where
  lastPoint : Pt
  qMirror : Pt
  cMirror : Pt
deriving DecidableEq, Repr

/-- Initial state for `pathCommands(startPoint, …)`. -/
def PState.init (p : Pt) : PState := ⟨p, p, p⟩

/-- The regex `/^\s*([a-df-z])\s*((?!\s)[^a-df-z]+)?$/i` of
`onCompleteCommand`: skip whitespace, one command letter, skip whitespace,
then (optionally) parameter text that starts with a non-space and contains
no command letter, running to the end of the token.  `none` models a null
match (dereferenced with `!` in the source, i.e. a `TypeError`). -/
def parseCmdToken (s : List Char) : Option (Char × List Char) :=
  match s.dropWhile isWsChar with
  | [] => none
  | c :: cs =>
    if isCmdLetter c then
      let r2 := cs.dropWhile isWsChar
      if r2.all (fun d => !isCmdLetter d) then some (c, r2) else none
    else none

/-- `L`: absolute line-to pairs; returns emitted commands and the final
`lastPoint`. -/
def emitLAbs : List JSNum → Pt → List Cmd × Pt
  | x :: y :: rest, _ =>
    let p : Pt := ⟨x, y⟩
    let (cs, q) := emitLAbs rest p
    (.line p :: cs, q)
  | _, last => ([], last)

/-- `l`: relative line-to pairs. -/
def emitLRel : List JSNum → Pt → List Cmd × Pt
  | x :: y :: rest, last =>
    let p : Pt := ⟨last.x.add x, last.y.add y⟩
    let (cs, q) := emitLRel rest p
    (.line p :: cs, q)
  | _, last => ([], last)

/-- `H`: absolute horizontal line-to scalars. -/
def emitHAbs : List JSNum → Pt → List Cmd × Pt
  | x :: rest, last =>
    let p : Pt := ⟨x, last.y⟩
    let (cs, q) := emitHAbs rest p
    (.line p :: cs, q)
  | _, last => ([], last)

/-- `h`: relative horizontal line-to scalars. -/
def emitHRel : List JSNum → Pt → List Cmd × Pt
  | x :: rest, last =>
    let p : Pt := ⟨last.x.add x, last.y⟩
    let (cs, q) := emitHRel rest p
    (.line p :: cs, q)
  | _, last => ([], last)

/-- `V`: absolute vertical line-to scalars. -/
def emitVAbs : List JSNum → Pt → List Cmd × Pt
  | y :: rest, last =>
    let p : Pt := ⟨last.x, y⟩
    let (cs, q) := emitVAbs rest p
    (.line p :: cs, q)
  | _, last => ([], last)

/-- `v`: relative vertical line-to scalars. -/
def emitVRel : List JSNum → Pt → List Cmd × Pt
  | y :: rest, last =>
    let p : Pt := ⟨last.x, last.y.add y⟩
    let (cs, q) := emitVRel rest p
    (.line p :: cs, q)
  | _, last => ([], last)

/-- `Q`/`q` groups of 4: emits QuadraticCurve, threading `(lastPoint,
qMirror)`; `cMirror` is untouched by the source. -/
def emitQ (rel : Bool) : List JSNum → Pt → Pt → List Cmd × Pt × Pt
  | cx :: cy :: x :: y :: rest, last, _ =>
    let q : Pt := if rel then ⟨last.x.add cx, last.y.add cy⟩ else ⟨cx, cy⟩
    let p : Pt := if rel then ⟨last.x.add x, last.y.add y⟩ else ⟨x, y⟩
    let (cs, res) := emitQ rel rest p q
    (.quad q p :: cs, res)
  | _, last, qm => ([], last, qm)

/-- `T`/`t` groups of 2: reflects `qMirror` through `lastPoint`
(`reflected = lastPoint*2 - qMirror`, computed as
`lastPoint + (lastPoint - qMirror)` in the source). -/
def emitT (rel : Bool) : List JSNum → Pt → Pt → List Cmd × Pt × Pt
  | x :: y :: rest, last, qm =>
    let q : Pt := ⟨last.x.add (last.x.sub qm.x), last.y.add (last.y.sub qm.y)⟩
    let p : Pt := if rel then ⟨last.x.add x, last.y.add y⟩ else ⟨x, y⟩
    let (cs, res) := emitT rel rest p q
    (.quad q p :: cs, res)
  | _, last, qm => ([], last, qm)

/-- `C`/`c` groups of 6: emits CubicCurve, threading `(lastPoint,
cMirror)`; `qMirror` is untouched by the source. -/
def emitC (rel : Bool) : List JSNum → Pt → Pt → List Cmd × Pt × Pt
  | x1 :: y1 :: x2 :: y2 :: x :: y :: rest, last, _ =>
    let c1 : Pt := if rel then ⟨last.x.add x1, last.y.add y1⟩ else ⟨x1, y1⟩
    let c2 : Pt := if rel then ⟨last.x.add x2, last.y.add y2⟩ else ⟨x2, y2⟩
    let p : Pt := if rel then ⟨last.x.add x, last.y.add y⟩ else ⟨x, y⟩
    let (cs, res) := emitC rel rest p c2
    (.cubic c1 c2 p :: cs, res)
  | _, last, cm => ([], last, cm)

/-- `S`/`s` groups of 4: first control point reflects `cMirror` through
`lastPoint`; second control point is explicit and becomes the new
`cMirror`. -/
def emitS (rel : Bool) : List JSNum → Pt → Pt → List Cmd × Pt × Pt
  | x2 :: y2 :: x :: y :: rest, last, cm =>
    let c1 : Pt := ⟨last.x.add (last.x.sub cm.x), last.y.add (last.y.sub cm.y)⟩
    let c2 : Pt := if rel then ⟨last.x.add x2, last.y.add y2⟩ else ⟨x2, y2⟩
    let p : Pt := if rel then ⟨last.x.add x, last.y.add y⟩ else ⟨x, y⟩
    let (cs, res) := emitS rel rest p c2
    (.cubic c1 c2 p :: cs, res)
  | _, last, cm => ([], last, cm)

/-- JS `!!n` on a number: false exactly for `0`, `-0` and `NaN`. -/
def JSNum.truthy : JSNum → Bool
  | some q => q ≠ 0
  | none => false

/-- `A`/`a` groups of 7: emits Arc; only `lastPoint` is threaded (the
source's `A`/`a` cases never touch the mirrors). -/
def emitA (rel : Bool) : List JSNum → Pt → List Cmd × Pt
  | rx :: ry :: rot :: laf :: swf :: x :: y :: rest, last =>
    let p : Pt := if rel then ⟨last.x.add x, last.y.add y⟩ else ⟨x, y⟩
    let (cs, q) := emitA rel rest p
    (.arc rx ry rot laf.truthy swf.truthy p :: cs, q)
  | _, last => ([], last)

/-- `onCompleteCommand` (lines 106–325): match the command token, parse its
parameters, check the count, then emit segments and update the cursor
state.  A failed count/letter check raises before anything is emitted. -/
def onCompleteCommand (tok : List Char) (st : PState) : Except Err (List Cmd × PState) :=
  match parseCmdToken tok with
  | none => .error .typeError
  | some (letter, paramText) =>
    let ps : List JSNum := if paramText = [] then [] else parseParams paramText
    match letter with
    | 'L' =>
      if ps.length < 2 ∨ ps.length % 2 ≠ 0 then .error (.invalidParams tok) else
      let (cs, p) := emitLAbs ps st.lastPoint
      .ok (cs, ⟨p, p, p⟩)
    | 'l' =>
      if ps.length < 2 ∨ ps.length % 2 ≠ 0 then .error (.invalidParams tok) else
      let (cs, p) := emitLRel ps st.lastPoint
      .ok (cs, ⟨p, p, p⟩)
    | 'H' =>
      if ps.length < 1 then .error (.invalidParams tok) else
      let (cs, p) := emitHAbs ps st.lastPoint
      .ok (cs, ⟨p, p, p⟩)
    | 'h' =>
      if ps.length < 1 then .error (.invalidParams tok) else
      let (cs, p) := emitHRel ps st.lastPoint
      .ok (cs, ⟨p, p, p⟩)
    | 'V' =>
      if ps.length < 1 then .error (.invalidParams tok) else
      let (cs, p) := emitVAbs ps st.lastPoint
      .ok (cs, ⟨p, p, p⟩)
    | 'v' =>
      if ps.length < 1 then .error (.invalidParams tok) else
      let (cs, p) := emitVRel ps st.lastPoint
      .ok (cs, ⟨p, p, p⟩)
    | 'Q' =>
      if ps.length < 4 ∨ ps.length % 4 ≠ 0 then .error (.invalidParams tok) else
      let (cs, p, qm) := emitQ false ps st.lastPoint st.qMirror
      .ok (cs, ⟨p, qm, st.cMirror⟩)
    | 'q' =>
      if ps.length < 4 ∨ ps.length % 4 ≠ 0 then .error (.invalidParams tok) else
      let (cs, p, qm) := emitQ true ps st.lastPoint st.qMirror
      .ok (cs, ⟨p, qm, st.cMirror⟩)
    | 'T' =>
      if ps.length < 2 ∨ ps.length % 2 ≠ 0 then .error (.invalidParams tok) else
      let (cs, p, qm) := emitT false ps st.lastPoint st.qMirror
      .ok (cs, ⟨p, qm, st.cMirror⟩)
    | 't' =>
      if ps.length < 2 ∨ ps.length % 2 ≠ 0 then .error (.invalidParams tok) else
      let (cs, p, qm) := emitT true ps st.lastPoint st.qMirror
      .ok (cs, ⟨p, qm, st.cMirror⟩)
    | 'C' =>
      if ps.length < 6 ∨ ps.length % 6 ≠ 0 then .error (.invalidParams tok) else
      let (cs, p, cm) := emitC false ps st.lastPoint st.cMirror
      .ok (cs, ⟨p, st.qMirror, cm⟩)
    | 'c' =>
      if ps.length < 6 ∨ ps.length % 6 ≠ 0 then .error (.invalidParams tok) else
      let (cs, p, cm) := emitC true ps st.lastPoint st.cMirror
      .ok (cs, ⟨p, st.qMirror, cm⟩)
    | 'S' =>
      if ps.length < 4 ∨ ps.length % 4 ≠ 0 then .error (.invalidParams tok) else
      let (cs, p, cm) := emitS false ps st.lastPoint st.cMirror
      .ok (cs, ⟨p, st.qMirror, cm⟩)
    | 's' =>
      if ps.length < 4 ∨ ps.length % 4 ≠ 0 then .error (.invalidParams tok) else
      let (cs, p, cm) := emitS true ps st.lastPoint st.cMirror
      .ok (cs, ⟨p, st.qMirror, cm⟩)
    | 'A' =>
      if ps.length < 7 ∨ ps.length % 7 ≠ 0 then .error (.invalidParams tok) else
      let (cs, p) := emitA false ps st.lastPoint
      .ok (cs, { st with lastPoint := p })
    | 'a' =>
      if ps.length < 7 ∨ ps.length % 7 ≠ 0 then .error (.invalidParams tok) else
      let (cs, p) := emitA true ps st.lastPoint
      .ok (cs, { st with lastPoint := p })
    | _ => .error (.invalidCommand tok)

/-! ### The command tokenizer (`pathCommands`' chunk loop, lines 326–345) -/

/-- One iteration of `str.match(/^\s*[a-df-z][^a-df-z]*(?=[a-df-z])/i)`:
after optional whitespace the head must be a command letter; the match runs
over the following non-letters and requires (without consuming) a next
command letter.  Since the non-letter run is maximal and every shorter run
would put the lookahead on a non-letter, the regex matches exactly when a
second command letter exists, and the match is unique — no backtracking
case analysis remains.  Returns `(match[0], remainder)`. -/
def peelCommand (s : List Char) : Option (List Char × List Char) :=
  let w := s.takeWhile isWsChar
  match s.dropWhile isWsChar with
  | [] => none
  | c :: cs =>
    if isCmdLetter c then
      let body := cs.takeWhile (fun d => !isCmdLetter d)
      let rest := cs.dropWhile (fun d => !isCmdLetter d)
      if rest = [] then none else some (w ++ c :: body, rest)
    else none

/-- Fuelled `for(;;)` peel loop shared by the command tokenizer and the
subpath splitter: emit every complete token the peel function finds in the
buffer, return the tokens and the residual buffer.  Each successful peel
consumes at least one character, so `length + 1` fuel always suffices. -/
def drainAux (peel : List Char → Option (List Char × List Char)) :
    ℕ → List Char → List (List Char) × List Char
  | 0, s => ([], s)
  | fuel + 1, s =>
    match peel s with
    | none => ([], s)
    | some (tok, rest) =>
      let (toks, res) := drainAux peel fuel rest
      (tok :: toks, res)

/-- Run a peel loop on a whole buffer. -/
def drain (peel : List Char → Option (List Char × List Char)) (s : List Char) :
    List (List Char) × List Char :=
  drainAux peel (s.length + 1) s

/-- Drain all complete command tokens from a buffer. -/
def drainCommands (s : List Char) : List (List Char) × List Char :=
  drain peelCommand s

/-- Feed a chunk stream through a peel loop's accumulation buffer: on each
chunk the buffer is extended and drained; returns all emitted tokens and
the final residual buffer (shared by the tokenizer and the splitter). -/
def drainChunks (peel : List Char → Option (List Char × List Char))
    (chunks : List (List Char)) : List (List Char) × List Char :=
  chunks.foldl
    (fun acc chunk =>
      let (toks, res) := drain peel (acc.2 ++ chunk)
      (acc.1 ++ toks, res))
    ([], [])

/-- The command tokens of the chunk stream (see `drainChunks`), including
the final flush of a non-blank residue
(`if (/\S/.test(prefix)) onCompleteCommand(prefix)`). -/
def tokenizeChunks (chunks : List (List Char)) : List (List Char) :=
  let (toks, res) := drainChunks peelCommand chunks
  toks ++ (if res.any (fun c => !isWsChar c) then [res] else [])

/-- Parse a token sequence, accumulating emitted segments and stopping at
the first error.  In the source the tokenizer keeps looping after
`subscriber.error`, but every later `next`/`error` lands on a closed
subscriber and is dropped, so the observable outcome is this early-exit
fold. -/
def parseTokens : PState → List (List Char) → List Cmd × Option Err
  | _, [] => ([], none)
  | st, tok :: toks =>
    match onCompleteCommand tok st with
    | .error e => ([], some e)
    | .ok (cs, st') =>
      let (rest, err) := parseTokens st' toks
      (cs ++ rest, err)

/-- `pathCommands(startPoint, input)` as a whole-stream function: the
emitted segment sequence and terminal error of the observable, for input
delivered as the given chunks. -/
def pathCommandsRun (startPoint : Pt) (chunks : List (List Char)) : List Cmd × Option Err :=
  parseTokens (PState.init startPoint) (tokenizeChunks chunks)

/-! ### The subpath splitter (`splitSubPathStrings`, lines 349–382) -/

/-- One iteration of `str.match(/^\s*(\S[^zm]*)(?=m)/i)`: after optional
whitespace, one non-space character, then the run of characters outside
`[zmZM]`, with a lookahead requiring the next character to be `m`/`M`.
The run is maximal (it stops at the first `z`/`m`-letter) and shortening it
puts the lookahead on a non-`m` character, so the regex matches exactly
when the first `z`/`m`-letter after the leading character exists and is an
`m`; the match is then unique.  Returns `(match[1], remainder)` — the
emitted string excludes the leading whitespace (`match[0]` minus
`match[1]`), which is sliced off the buffer. -/
def peelSubPath (s : List Char) : Option (List Char × List Char) :=
  match s.dropWhile isWsChar with
  | [] => none
  | c :: cs =>
    let body := cs.takeWhile (fun d => !isZM d)
    match cs.dropWhile (fun d => !isZM d) with
    | [] => none
    | d :: ds => if isMChar d then some (c :: body, d :: ds) else none

/-- Drain all complete subpath strings from a buffer. -/
def drainSubPaths (s : List Char) : List (List Char) × List Char :=
  drain peelSubPath s

/-- The raw subpath strings cut from the chunk stream, including the final
flush: on completion, `str.match(/^\s*(\S[\s\S]*)$/i)` emits the residue
from its first non-space character to the end, if any. -/
def splitSubPathTokens (chunks : List (List Char)) : List (List Char) :=
  let (toks, res) := drainChunks peelSubPath chunks
  toks ++ (if (res.dropWhile isWsChar) = [] then [] else [res.dropWhile isWsChar])

/-- Apply the splitter's `expected M or m` check to each cut string,
stopping at the first failure (both the loop and the completion handler
check `match[1][0].toLowerCase() !== 'm'` before emitting). -/
def checkMoveTokens : List (List Char) → List (List Char) × Option Err
  | [] => ([], none)
  | tok :: toks =>
    match tok with
    | [] => ([], some .typeError)
    | c :: _ =>
      if isMChar c then
        let (rest, err) := checkMoveTokens toks
        (tok :: rest, err)
      else ([], some (.expectedMove c))

/-- `splitSubPathStrings()` as a whole-stream function: the emitted subpath
strings and the terminal error. -/
def splitSubPathsRun (chunks : List (List Char)) : List (List Char) × Option Err :=
  checkMoveTokens (splitSubPathTokens chunks)

/-! ### `fromSVGPathData` (lines 384–416) -/

/-- The regex `/^\s*(m)([^a-df-z]*)([^mz]*)(z\s*)?$/i` applied to one
subpath string: skip whitespace, require `m`/`M`, group 2 is the maximal
run of non-command-letters, group 3 the following maximal run outside
`[mz]`, and the remainder must be empty (not closed) or a single `z`/`Z`
followed only by whitespace (closed).  Group 3 ends at the first `m`/`z`
letter; characters surrendered by backtracking can never begin the
optional `(z\s*)` group, so the greedy reading is exhaustive and a
remainder starting with `m`, or with `z` followed by more text, makes the
whole match null (the source dereferences it with `!`). -/
def matchSubPathString (s : List Char) : Option (Char × List Char × List Char × Bool) :=
  match s.dropWhile isWsChar with
  | [] => none
  | c :: cs =>
    if isMChar c then
      let moveText := cs.takeWhile (fun d => !isCmdLetter d)
      let r1 := cs.dropWhile (fun d => !isCmdLetter d)
      let cmdText := r1.takeWhile (fun d => !isZM d)
      match r1.dropWhile (fun d => !isZM d) with
      | [] => some (c, moveText, cmdText, false)
      | d :: ds =>
        if d.toLower = 'z' ∧ ds.all isWsChar then some (c, moveText, cmdText, true)
        else none
    else none

/-- Number-to-text conversion used where the source interpolates a number
into a string (`join`, template literals).  `NaN` prints as `"NaN"`; a
finite value prints sign, integer digits, and — when the value is not an
integer — a fractional part.  The fractional expansion is fuelled; it is
exact for every value with a finite decimal expansion, which covers all
values these theorems serialize (JS prints such doubles the same way). -/
def fracChars : ℕ → ℕ → ℕ → List Char
  | 0, _, _ => []
  | _ + 1, 0, _ => []
  | fuel + 1, num, den =>
    (Nat.toDigits 10 (num * 10 / den)) ++ fracChars fuel (num * 10 % den) den

/-- Text of a JS number (see `fracChars`). -/
def numToChars : JSNum → List Char
  | none => 'N' :: 'a' :: 'N' :: []
  | some q =>
    (if q.num < 0 then ['-'] else []) ++
    Nat.toDigits 10 (q.num.natAbs / q.den) ++
    (if q.den = 1 then [] else '.' :: fracChars 64 (q.num.natAbs % q.den) q.den)

/-- `moveParams.slice(2).join(' ')`. -/
def joinSpace : List JSNum → List Char
  | [] => []
  | [n] => numToChars n
  | n :: rest => numToChars n ++ ' ' :: joinSpace rest

/-- The body of `fromSVGPathData`'s `concatMap` for a single subpath
string, threading the inter-subpath `lastPoint`: match the subpath regex
(null match ⇒ TypeError), parse and validate the move parameters, apply
the move (relative iff `match[1] === 'm'`), fold extra coordinate pairs
into an implicit `L`/`l` command prefixed to the command text, run
`pathCommands` over the command text as one chunk, and take the last
command's `toPoint` as the next `lastPoint` — `commands[commands.length-1]`
on an empty array is `undefined`, so `.toPoint` is a TypeError. -/
def parseSubPathString (lastPoint : Pt) (s : List Char) : Except Err (SubPath × Pt) :=
  match matchSubPathString s with
  | none => .error .typeError
  | some (mChar, moveText, cmdText0, closed) =>
    let moveParams := parseParams moveText
    if moveParams.length < 2 ∨ moveParams.length % 2 ≠ 0 then
      .error (.invalidParams (mChar :: moveText))
    else
      let p0 := moveParams.getD 0 JSNum.nan
      let p1 := moveParams.getD 1 JSNum.nan
      let newLast : Pt :=
        if mChar = 'm' then ⟨lastPoint.x.add p0, lastPoint.y.add p1⟩ else ⟨p0, p1⟩
      let cmdText :=
        if moveParams.length > 2 then
          (if mChar = 'm' then 'l' else 'L') :: joinSpace (moveParams.drop 2) ++ ' ' :: cmdText0
        else cmdText0
      match pathCommandsRun newLast [cmdText] with
      | (_, some e) => .error e
      | (cmds, none) =>
        match cmds.getLast? with
        | none => .error .typeError
        | some lastCmd =>
          .ok (⟨newLast, cmds, closed, none⟩, lastCmd.toPoint)

/-- Fold `parseSubPathString` over the splitter's output, threading
`lastPoint` (initially `{x:0, y:0}`) and stopping at the first error. -/
def parseSubPathStrings : Pt → List (List Char) → List SubPath × Option Err
  | _, [] => ([], none)
  | lastPt, s :: ss =>
    match parseSubPathString lastPt s with
    | .error e => ([], some e)
    | .ok (sp, lastPt') =>
      let (rest, err) := parseSubPathStrings lastPt' ss
      (sp :: rest, err)

/-- `fromSVGPathData()` as a whole-stream function: the emitted `SubPath`s
and terminal error for input delivered as the given chunks.  A splitter
error is only observed after the subpaths cut before it have been
processed (and is pre-empted by an error in that processing). -/
def fromSVGRun (chunks : List (List Char)) : List SubPath × Option Err :=
  let (strs, serr) := splitSubPathsRun chunks
  let (sps, perr) := parseSubPathStrings ⟨some 0, some 0⟩ strs
  match perr with
  | some e => (sps, some e)
  | none => (sps, serr)

/-! ### The serializer (`pathCommandToString`, `toSVGPathData`, lines 60–99) -/

/-- `pathCommandToString`: the canonical absolute text of one segment. -/
def pathCommandToString : Cmd → List Char
  | .line p => 'L' :: numToChars p.x ++ ',' :: numToChars p.y
  | .quad c p =>
    'Q' :: numToChars c.x ++ ',' :: numToChars c.y ++ ' ' ::
    numToChars p.x ++ ',' :: numToChars p.y
  | .cubic c1 c2 p =>
    'C' :: numToChars c1.x ++ ',' :: numToChars c1.y ++ ' ' ::
    numToChars c2.x ++ ',' :: numToChars c2.y ++ ' ' ::
    numToChars p.x ++ ',' :: numToChars p.y
  | .arc rx ry rot la sw p =>
    'A' :: numToChars rx ++ ' ' :: numToChars ry ++ ' ' :: numToChars rot ++ ' ' ::
    (if la then '1' else '0') :: ' ' :: (if sw then '1' else '0') :: ' ' ::
    numToChars p.x ++ ',' :: numToChars p.y

/-- The text fragments `toSVGPathData` generates for one subpath when no
cached text is present: a move fragment, one fragment per segment, and a
close fragment when `closed`. -/
def genFragments (sp : SubPath) : List (List Char) :=
  ('M' :: numToChars sp.startPoint.x ++ ',' :: numToChars sp.startPoint.y) ::
  sp.commands.map pathCommandToString ++ (if sp.closed then [['Z']] else [])

/-- `toSVGPathData()` over a list of subpaths: for each subpath, emit its
cached `svgPathData` verbatim when it is a string, otherwise generate. -/
def toSVGPathDataRun (sps : List SubPath) : List (List Char) :=
  sps.flatMap fun sp =>
    match sp.svgPathData with
    | some s => [s]
    | none => genFragments sp

/-! ### The subpath inverter (`invertSubPaths`, lines 432–513) -/

/-- The per-variant rewrite of the inverter's loop body: the new segment
keeps the variant data (cubic control points swapped, quadratic control
kept, arc `sweepFlag` negated) and takes the supplied `toPoint` (the next
slot's endpoint). -/
def rwSeg (c : Cmd) (toPt : Pt) : Cmd :=
  match c with
  | .line _ => .line toPt
  | .quad cp _ => .quad cp toPt
  | .cubic c1 c2 _ => .cubic c2 c1 toPt
  | .arc rx ry rot la sw _ => .arc rx ry rot la (!sw) toPt

/-- `invertSubPaths` for one subpath, mirroring lines 436–509: materialize
a closing Line when needed, reverse, append the sentinel Line to the old
start, rewrite each slot `i` from slot `i+1`'s endpoint (modelled by
`zipWith` over the sentineled list and its tail — the loop reads
`commands[i+1]` before writing it), pop the sentinel, and drop a trailing
Line that lands exactly (JS `===`) on the new start of a closed subpath. -/
def invertSubPath (sp : SubPath) : SubPath :=
  let closed := sp.closed
  if sp.commands = [] then
    { startPoint := sp.startPoint, commands := sp.commands, closed := closed, svgPathData := none }
  else
    let cmds1 :=
      if closed && !(ptSEq (sp.commands.getLastD (.line sp.startPoint)).toPoint sp.startPoint) then
        sp.commands ++ [.line sp.startPoint]
      else sp.commands
    let rev := cmds1.reverse ++ [Cmd.line sp.startPoint]
    let startPoint := ((cmds1.getLastD (.line sp.startPoint)).toPoint)
    let body := List.zipWith (fun c n => rwSeg c n.toPoint) rev rev.tail
    let dropLastLine : Bool :=
      match body.getLast? with
      | some (.line p) => ptSEq p startPoint
      | _ => false
    let cmds2 := if closed && dropLastLine then body.dropLast else body
    { startPoint := startPoint, commands := cmds2, closed := closed, svgPathData := none }

/-! ### Point transforms (`transformPathCommandPoints`,
`transformSubPathPoints`, lines 515–549) -/

/-- `transformPathCommandPoints` applied to one command: maps every
endpoint and control point through the transformer; an Arc throws
(`unable to transform arc point-by-point`). -/
def transformCmd (f : Pt → Pt) : Cmd → Except Err Cmd
  | .line p => .ok (.line (f p))
  | .quad c p => .ok (.quad (f c) (f p))
  | .cubic c1 c2 p => .ok (.cubic (f c1) (f c2) (f p))
  | .arc _ _ _ _ _ _ => .error .typeError

/-- The command stream of a transformed subpath: the transformed list, or
the first error. -/
def transformCmds (f : Pt → Pt) : List Cmd → Except Err (List Cmd)
  | [] => .ok []
  | c :: cs => do pure ((← transformCmd f c) :: (← transformCmds f cs))

/-- A subpath whose command stream may terminate in an error (the record
`transformSubPathPoints` builds exists before its lazy `commands` stream
is consumed, so the stream's outcome is part of the value). -/
structure LazySubPath where
  startPoint : Pt
  commandsRes : Except Err (List Cmd)
  closed : Bool
  svgPathData : Option (List Char)

/-- `transformSubPathPoints(transformer)` on one subpath: the returned
object carries the transformed start point, the lazily transformed
command stream, the `closed` flag — and no `svgPathData`. -/
def transformSubPathPoints (f : Pt → Pt) (sp : SubPath) : LazySubPath :=
  { startPoint := f sp.startPoint
    commandsRes := transformCmds f sp.commands
    closed := sp.closed
    svgPathData := none }

/-! ### The arc normalizer (`curvifyArcCommands`, lines 551–671),
modelled over the real numbers.

The source works on IEEE doubles; the model uses exact reals, which is
faithful for the branch decisions below because every compared quantity in
the concrete theorems is far from the branch thresholds.  The literal
`1.5707963267948966` (the double nearest π/2, used to select the exact
quarter-circle constant) is modelled as `π/2`. -/

/-- A point with real coordinates, for the arc pipeline. -/
structure RPt where
  x : ℝ
  y : ℝ

/-- A path segment with real scalars, for the arc pipeline. -/
inductive RCmd where
  | line (toPoint : RPt)
  | quad (cp toPoint : RPt)
  | cubic (c1 c2 toPoint : RPt)
  | arc (rx ry rot : ℝ) (large sweep : Bool) (toPoint : RPt)

/-- Endpoint of a real-valued segment. -/
def RCmd.toPoint : RCmd → RPt
  | .line p => p
  | .quad _ p => p
  | .cubic _ _ p => p
  | .arc _ _ _ _ _ p => p

/-- Line 567: `Math.sin(rotateDegrees * Math.PI / 180)`. -/
noncomputable def arcSinphi (rot : ℝ) : ℝ := Real.sin (rot * Real.pi / 180)

/-- Line 568: `Math.cos(rotateDegrees * Math.PI / 360)` — the source
divides by 360 here (while `sinphi` divides by 180). -/
noncomputable def arcCosphi (rot : ℝ) : ℝ := Real.cos (rot * Real.pi / 360)

/-- Line 569: the rotated half-chord, x-component. -/
noncomputable def arcPxp (p0 p1 : RPt) (rot : ℝ) : ℝ :=
  arcCosphi rot * (p0.x - p1.x) / 2 + arcSinphi rot * (p0.y - p1.y) / 2

/-- Line 570: the rotated half-chord, y-component — the source subtracts
`command.toPoint.y` from `lastPoint.x` in the first term. -/
noncomputable def arcPyp (p0 p1 : RPt) (rot : ℝ) : ℝ :=
  -arcSinphi rot * (p0.x - p1.y) / 2 + arcCosphi rot * (p0.y - p1.y) / 2

/-- Lines 576–583: radii made positive, then scaled up by `√lambda` when
the ellipse cannot reach the endpoints (`lambda > 1`). -/
noncomputable def arcFixedRadii (rx ry pxp pyp : ℝ) : ℝ × ℝ :=
  let rx1 := |rx|
  let ry1 := |ry|
  let lambda := pxp ^ 2 / rx1 ^ 2 + pyp ^ 2 / ry1 ^ 2
  if lambda > 1 then (rx1 * Real.sqrt lambda, ry1 * Real.sqrt lambda) else (rx1, ry1)

/-- Lines 591–596: the signed square root selecting the center root
according to the flags (clamped to 0 when the radicand is negative). -/
noncomputable def arcRadicant (rx ry pxp pyp : ℝ) (large sweep : Bool) : ℝ :=
  let r0 := rx ^ 2 * ry ^ 2 - rx ^ 2 * pyp ^ 2 - ry ^ 2 * pxp ^ 2
  let r1 := if r0 < 0 then 0 else r0
  let r2 := r1 / (rx ^ 2 * pyp ^ 2 + ry ^ 2 * pxp ^ 2)
  Real.sqrt r2 * (if large = sweep then -1 else 1)

/-- Lines 598–599: the center in the rotated frame. -/
noncomputable def arcCenterP (rx ry pxp pyp : ℝ) (large sweep : Bool) : ℝ × ℝ :=
  (arcRadicant rx ry pxp pyp large sweep * rx / ry * pyp,
   arcRadicant rx ry pxp pyp large sweep * (-ry) / rx * pxp)

/-- Lines 601–602: the center mapped back to the original frame. -/
noncomputable def arcCenter (p0 p1 : RPt) (rot rx ry pxp pyp : ℝ) (large sweep : Bool) : RPt :=
  ⟨arcCosphi rot * (arcCenterP rx ry pxp pyp large sweep).1
     - arcSinphi rot * (arcCenterP rx ry pxp pyp large sweep).2 + (p0.x + p1.x) / 2,
   arcSinphi rot * (arcCenterP rx ry pxp pyp large sweep).1
     + arcCosphi rot * (arcCenterP rx ry pxp pyp large sweep).2 + (p0.y + p1.y) / 2⟩

/-- `Math.acos` of the clamped dot product (`dot > 1 ? 1 : dot < -1 ? -1 :
dot`). -/
noncomputable def acosClamped (dot : ℝ) : ℝ :=
  Real.arccos (if dot > 1 then 1 else if dot < -1 then -1 else dot)

/-- Line 605: `vx1 = (pxp - cxp) / rx`. -/
noncomputable def arcVx1 (rx ry pxp pyp : ℝ) (large sweep : Bool) : ℝ :=
  (pxp - (arcCenterP rx ry pxp pyp large sweep).1) / rx

/-- Line 606: `vy1 = (pyp - cyp) / ry`. -/
noncomputable def arcVy1 (rx ry pxp pyp : ℝ) (large sweep : Bool) : ℝ :=
  (pyp - (arcCenterP rx ry pxp pyp large sweep).2) / ry

/-- Line 607: `vx2 = (-pxp - cxp) / rx`. -/
noncomputable def arcVx2 (rx ry pxp pyp : ℝ) (large sweep : Bool) : ℝ :=
  (-pxp - (arcCenterP rx ry pxp pyp large sweep).1) / rx

/-- Line 608: `vy2 = (-pyp - cyp) / ry`. -/
noncomputable def arcVy2 (rx ry pxp pyp : ℝ) (large sweep : Bool) : ℝ :=
  (-pyp - (arcCenterP rx ry pxp pyp large sweep).2) / ry

/-- Lines 604–612: the start angle `ang1`. -/
noncomputable def arcAng1 (rx ry pxp pyp : ℝ) (large sweep : Bool) : ℝ :=
  (if arcVy1 rx ry pxp pyp large sweep < 0 then -1 else 1)
    * acosClamped (arcVx1 rx ry pxp pyp large sweep)

/-- Lines 614–617: the raw sweep angle before the flag adjustment. -/
noncomputable def arcA0 (rx ry pxp pyp : ℝ) (large sweep : Bool) : ℝ :=
  (if arcVx1 rx ry pxp pyp large sweep * arcVy2 rx ry pxp pyp large sweep
      - arcVy1 rx ry pxp pyp large sweep * arcVx2 rx ry pxp pyp large sweep < 0
    then -1 else 1)
    * acosClamped (arcVx1 rx ry pxp pyp large sweep * arcVx2 rx ry pxp pyp large sweep
        + arcVy1 rx ry pxp pyp large sweep * arcVy2 rx ry pxp pyp large sweep)

/-- Lines 614–622: the sweep `ang2`, including the sweep-flag adjustment
exactly as written in the source (`a1 = a0 > 0 ? a0 - 2π : a0`, then
`a1 < 0 ? a1 + 2π : a1`, inlined here): when `sweepFlag` is unset, a
positive `ang2` first gets 2π subtracted and the (now negative) value
immediately gets 2π added back, while a negative `ang2` gets 2π added —
so the final value is always the positive representative. -/
noncomputable def arcAng2 (rx ry pxp pyp : ℝ) (large sweep : Bool) : ℝ :=
  if sweep then arcA0 rx ry pxp pyp large sweep
  else if arcA0 rx ry pxp pyp large sweep > 0 then
    (if arcA0 rx ry pxp pyp large sweep - 2 * Real.pi < 0 then
      arcA0 rx ry pxp pyp large sweep - 2 * Real.pi + 2 * Real.pi
     else arcA0 rx ry pxp pyp large sweep - 2 * Real.pi)
  else
    (if arcA0 rx ry pxp pyp large sweep < 0 then
      arcA0 rx ry pxp pyp large sweep + 2 * Real.pi
     else arcA0 rx ry pxp pyp large sweep)

/-- Lines 625–632: the number of cubic segments: `ratio = |ang2|/(π/2)`,
snapped to 1 when within 1e-7, then `max(ceil(ratio), 1)`. -/
noncomputable def arcSegments (ang2 : ℝ) : ℤ :=
  let ratio := |ang2| / (Real.pi / 2)
  let ratio := if |1 - ratio| < 1 / 10 ^ 7 then 1 else ratio
  max ⌈ratio⌉ 1

/-- Line 639 `getPoint`: from the unit-circle frame back to the original
frame. -/
noncomputable def arcGetPoint (center : RPt) (rot rx ry x y : ℝ) : RPt :=
  ⟨center.x + arcCosphi rot * x * rx - arcSinphi rot * y * ry,
   center.y + arcSinphi rot * x * rx + arcCosphi rot * y * ry⟩

/-- Lines 641–663, one iteration: the cubic for the sub-arc starting at
`ang1` with sweep `delta` (the constant `0.551915024494` is substituted
when `delta` is the double nearest ±π/2, modelled as exactly ±π/2). -/
noncomputable def arcCubicAt (center : RPt) (rot rx ry ang1 delta : ℝ) : RCmd :=
  let a : ℝ :=
    if delta = Real.pi / 2 then 0.551915024494
    else if delta = -(Real.pi / 2) then -0.551915024494
    else 4 / 3 * Real.tan (delta / 4)
  let x1 := Real.cos ang1
  let y1 := Real.sin ang1
  let x2 := Real.cos (ang1 + delta)
  let y2 := Real.sin (ang1 + delta)
  .cubic
    (arcGetPoint center rot rx ry (x1 - y1 * a) (y1 + x1 * a))
    (arcGetPoint center rot rx ry (x2 + y2 * a) (y2 - x2 * a))
    (arcGetPoint center rot rx ry x2 y2)

/-- The emission loop (`for (let i = 0; i < segments; i++)`). -/
noncomputable def arcLoop (center : RPt) (rot rx ry : ℝ) : ℝ → ℝ → ℕ → List RCmd
  | _, _, 0 => []
  | ang1, delta, n + 1 =>
    arcCubicAt center rot rx ry ang1 delta :: arcLoop center rot rx ry (ang1 + delta) delta n

/-- The full conversion of one Arc from `lastPoint` (lines 562–665),
emitting the replacement segments. -/
noncomputable def curvifyArc (lastPoint : RPt) (rx0 ry0 rot : ℝ) (large sweep : Bool)
    (toPt : RPt) : List RCmd :=
  if rx0 = 0 ∨ ry0 = 0 then [.line toPt]
  else if arcPxp lastPoint toPt rot = 0 ∧ arcPyp lastPoint toPt rot = 0 then [.line toPt]
  else
    let pxp := arcPxp lastPoint toPt rot
    let pyp := arcPyp lastPoint toPt rot
    let rx := (arcFixedRadii rx0 ry0 pxp pyp).1
    let ry := (arcFixedRadii rx0 ry0 pxp pyp).2
    let center := arcCenter lastPoint toPt rot rx ry pxp pyp large sweep
    let ang1 := arcAng1 rx ry pxp pyp large sweep
    let ang2 := arcAng2 rx ry pxp pyp large sweep
    let segments := (arcSegments ang2).toNat
    let delta := ang2 / segments
    arcLoop center rot rx ry ang1 delta segments

/-- One step of `curvifyArcCommands`: a non-Arc command passes through,
an Arc with a zero radius degenerates to a Line, any other Arc is
converted. -/
noncomputable def curvifyStep (lastPoint : RPt) : RCmd → List RCmd
  | .arc rx ry rot la sw p => curvifyArc lastPoint rx ry rot la sw p
  | c => [c]

/-- `curvifyArcCommands(startPoint)` over a whole command list, threading
`lastPoint` (each input command's endpoint becomes the next start). -/
noncomputable def curvifyCmds : RPt → List RCmd → List RCmd
  | _, [] => []
  | lastPoint, c :: cs => curvifyStep lastPoint c ++ curvifyCmds c.toPoint cs

/-- A subpath with real scalars. -/
structure RSubPath where
  startPoint : RPt
  commands : List RCmd
  closed : Bool
  svgPathData : Option (List Char)

/-- `curvifySubPaths()` on one subpath (lines 673–679): start point and
`closed` carried through, commands piped through `curvifyArcCommands`, no
`svgPathData`. -/
noncomputable def curvifySubPath (sp : RSubPath) : RSubPath :=
  { startPoint := sp.startPoint
    commands := curvifyCmds sp.startPoint sp.commands
    closed := sp.closed
    svgPathData := none }

/-! ### Helper functions for stating and proving the claims -/

/-- The closing-segment normalization of the spec ("the materialized /
dropped implicit closing Line of a closed subpath"): drop a trailing Line
of a closed subpath that lands exactly on the start point. -/
def dropClose (sp : SubPath) : List Cmd :=
  let lastIsClose : Bool :=
    match sp.commands.getLast? with
    | some (.line p) => p = sp.startPoint
    | _ => false
  if sp.closed && lastIsClose then sp.commands.dropLast else sp.commands

/-- The commands of `invert (invert sp)` in closed form: the closing
normalization (`dropClose`), plus — for a closed subpath — the removal of
a leading zero-length Line (a first segment that is a Line landing exactly
back on the start point), which the inverter's trailing-Line drop deletes
from the reversed path. -/
def invertNormal (sp : SubPath) : List Cmd :=
  if !sp.closed then sp.commands
  else
    let a := dropClose sp
    match a with
    | Cmd.line p :: rest => if p = sp.startPoint then rest else a
    | _ => a

/-- The endpoint a command list reaches from a fallback point. -/
def lastTo : Pt → List Cmd → Pt
  | p, [] => p
  | _, c :: cs => lastTo c.toPoint cs

/-- Closed form of the inverter's rewrite pass: pair each segment with its
predecessor's endpoint (the subpath start for the first), rewrite, and
reverse. -/
def invCore : Pt → List Cmd → List Cmd
  | _, [] => []
  | s, c :: cs => invCore c.toPoint cs ++ [rwSeg c s]

/-- A point with both coordinates finite (non-NaN) — the data model's
finiteness invariant. -/
def Pt.Fin (p : Pt) : Prop := p.x ≠ none ∧ p.y ≠ none

/-- A subpath all of whose endpoints are finite. -/
def SubPath.FinPts (sp : SubPath) : Prop :=
  sp.startPoint.Fin ∧ ∀ c ∈ sp.commands, (Cmd.toPoint c).Fin

/-- A subpath containing no Arc segment. -/
def SubPath.NoArc (sp : SubPath) : Prop :=
  ∀ c ∈ sp.commands, ∀ rx ry rot la sw p, c ≠ Cmd.arc rx ry rot la sw p

/-! ## Theorems -/

/-! ### C2 — non-numeric parameter tokens -/

/-- C2, counterexample: the command token `L.,.` has non-numeric parameter
tokens, yet the segment parser completes without any error (there is no
`InvalidNumber` check in the source) and emits a Line whose coordinates
are both NaN — contradicting both halves of the claim. -/
theorem pathCommands_nonNumeric_no_error :
    pathCommandsRun ⟨some 0, some 0⟩ ["L.,.".toList] =
      ([.line ⟨JSNum.nan, JSNum.nan⟩], none) := by
  decide

/-- C2, amended: a non-numeric parameter token does not raise an error;
`parseFloat` yields NaN and, when the parameter count is valid for the
command, the parser emits segments whose numeric fields are NaN — e.g.
parsing the document `M0,0L.,.` succeeds and yields one subpath holding
one Line with both coordinates NaN.  (Parameter-count violations still
fail, with the parameter-count error.) -/
theorem fromSVGPathData_nonNumeric_emits_nan :
    fromSVGRun ["M0,0L.,.".toList] =
      ([⟨⟨some 0, some 0⟩, [.line ⟨JSNum.nan, JSNum.nan⟩], false, none⟩], none) := by
  decide

/-! ### C9 — single-pair move directive -/

/-- C9: parsing `M5,5` does not succeed: the subpath has no commands, so
`fromSVGPathData` evaluates `commands[-1].toPoint` (`commands[-1]` is
`undefined`), a TypeError that terminates the pipeline with an error and
zero emitted subpaths — the claim's empty-segments subpath is never
produced. -/
theorem fromSVGPathData_singleMove_faults :
    fromSVGRun ["M5,5".toList] = ([], some .typeError) := by
  decide

/-! ### C3 — subpath splitting at close-then-move boundaries -/

/-- C3: on `M0,0L1,1Z M2,2L3,3` the splitter emits exactly one string —
the entire document — instead of two: the peel regex `^\s*(\S[^zm]*)(?=m)`
cannot cross the `Z`, so nothing is peeled and the completion handler
flushes the whole buffer; the downstream subpath regex then fails to match
(null dereference), so parsing yields zero subpaths and a TypeError
rather than the claimed two subpaths. -/
theorem splitSubPaths_close_then_move_not_split :
    splitSubPathsRun ["M0,0L1,1Z M2,2L3,3".toList] =
        (["M0,0L1,1Z M2,2L3,3".toList], none) ∧
      fromSVGRun ["M0,0L1,1Z M2,2L3,3".toList] = ([], some .typeError) := by
  constructor
  · decide
  · decide

/-! ### C5 — serializer output format -/

/-- C5, counterexample: serializing the parse of `M0,0L100,100Z` and
concatenating the fragments yields `M0,0L100,100Z` — the serializer puts
no separator between consecutive command fragments — not the claimed
`M0,0 L100,100 Z`. -/
theorem serialize_concat_not_space_separated :
    (toSVGPathDataRun (fromSVGRun ["M0,0L100,100Z".toList]).1).flatten =
        "M0,0L100,100Z".toList ∧
      "M0,0L100,100Z".toList ≠ "M0,0 L100,100 Z".toList := by
  constructor
  · decide
  · decide

/-- C5, amended: serializing the parse of `M0,0L100,100Z` emits exactly
the fragments `M0,0`, `L100,100`, `Z` — numbers inside a fragment are
separated by single spaces and coordinate pairs joined by a comma, but
consecutive command fragments are concatenated with no separator, so the
claimed text arises only after whitespace normalization (inserting a space
before each command letter), as the repository's own test does. -/
theorem serialize_fragments_of_M00L100Z :
    toSVGPathDataRun (fromSVGRun ["M0,0L100,100Z".toList]).1 =
      ["M0,0".toList, "L100,100".toList, "Z".toList] := by
  decide

/-! ### C7 — mirror state after an arc command -/

/-- C7, counterexample: parsing `Q10,20 30,40A1,1,0,0,0,50,60T70,80` from
`{0,0}`, the `T` immediately after the arc emits control point `{90,100}`
— the reflection of the pre-arc quadratic mirror `{10,20}` through the
arc endpoint `{50,60}` — and not the current point `{50,60}` the claim
requires; the arc left both mirrors untouched. -/
theorem pathCommands_arc_leaves_mirrors_stale :
    pathCommandsRun ⟨some 0, some 0⟩
          ["Q10,20 30,40A1,1,0,0,0,50,60T70,80".toList] =
        ([.quad ⟨some 10, some 20⟩ ⟨some 30, some 40⟩,
          .arc (some 1) (some 1) (some 0) false false ⟨some 50, some 60⟩,
          .quad ⟨some 90, some 100⟩ ⟨some 70, some 80⟩], none) ∧
      (⟨some 90, some 100⟩ : Pt) ≠ ⟨some 50, some 60⟩ := by
  exact ⟨by decide, by decide⟩

/-- C7, amended: processing an `A`/`a` command updates only the current
point: the returned state is `{ st with lastPoint := … }`, so both the
quadratic and the cubic mirror keep the values they had before the
command, and a `T`/`t` (or `S`/`s`) immediately after an arc reflects the
mirror left by the segment before the arc through the arc's endpoint
(control point = 2·currentPoint − staleMirror, not the current point). -/
theorem pathCommands_arc_preserves_mirrors (tok : List Char) (st : PState)
    (c : Char) (rest : List Char)
    (hm : parseCmdToken tok = some (c, rest)) (hc : c = 'A' ∨ c = 'a')
    (hlen : ¬((parseParams rest).length < 7 ∨ (parseParams rest).length % 7 ≠ 0)) :
    onCompleteCommand tok st =
      .ok ((emitA (c = 'a') (parseParams rest) st.lastPoint).1,
        { st with lastPoint := (emitA (c = 'a') (parseParams rest) st.lastPoint).2 }) := by
  have hne : rest ≠ [] := by
    intro h
    apply hlen
    subst h
    exact Or.inl (by decide)
  unfold onCompleteCommand
  rw [hm]
  rcases hc with hc | hc <;> subst hc <;> simp only [if_neg hne, if_neg hlen] <;> rfl

/-- C7, witness for `pathCommands_arc_preserves_mirrors` at the token
`A1,1,0,0,0,50,60`. -/
theorem pathCommands_arc_preserves_mirrors_witness :
    onCompleteCommand "A1,1,0,0,0,50,60".toList
        ⟨⟨some 30, some 40⟩, ⟨some 10, some 20⟩, ⟨some 30, some 40⟩⟩ =
      .ok ((emitA ('A' = 'a') (parseParams "1,1,0,0,0,50,60".toList)
            ⟨some 30, some 40⟩).1,
        { lastPoint := (emitA ('A' = 'a') (parseParams "1,1,0,0,0,50,60".toList)
            ⟨some 30, some 40⟩).2,
          qMirror := ⟨some 10, some 20⟩, cMirror := ⟨some 30, some 40⟩ }) :=
  pathCommands_arc_preserves_mirrors "A1,1,0,0,0,50,60".toList
    ⟨⟨some 30, some 40⟩, ⟨some 10, some 20⟩, ⟨some 30, some 40⟩⟩
    'A' "1,1,0,0,0,50,60".toList (by decide) (Or.inl rfl) (by decide)

/-! ### C10 — transforms drop the cached serialization -/

/-- C10: the subpaths built by `invertSubPaths`, `transformSubPathPoints`
and `curvifySubPaths` all carry no `svgPathData` (the object literals the
source returns omit the property), so the serializer's cached-text branch
can never fire on them: serializing an inverted subpath always regenerates
its fragments from the structural data. -/
theorem transforms_emit_no_cached_text (f : Pt → Pt) (sp : SubPath) (rsp : RSubPath) :
    (invertSubPath sp).svgPathData = none ∧
      (transformSubPathPoints f sp).svgPathData = none ∧
      (curvifySubPath rsp).svgPathData = none ∧
      toSVGPathDataRun [invertSubPath sp] = genFragments (invertSubPath sp) := by
  have h1 : (invertSubPath sp).svgPathData = none := by
    unfold invertSubPath
    split <;> rfl
  refine ⟨h1, rfl, rfl, ?_⟩
  unfold toSVGPathDataRun
  simp [h1]

/-! ### C4 — chunk invariance of the tokenizer and splitter -/

/-- `takeWhile`/`dropWhile` split the length of a list. -/
theorem length_takeWhile_add_dropWhile {α : Type} (p : α → Bool) (s : List α) :
    (s.takeWhile p).length + (s.dropWhile p).length = s.length := by
  rw [← List.length_append, List.takeWhile_append_dropWhile]

/-- `dropWhile` never lengthens a list. -/
theorem length_dropWhile_le' {α : Type} (p : α → Bool) (s : List α) :
    (s.dropWhile p).length ≤ s.length := by
  have := length_takeWhile_add_dropWhile p s
  omega

/-- When `dropWhile` leaves something of `s`, appending text does not
change it except for carrying the appendage. -/
theorem dropWhile_append_ne {α : Type} (p : α → Bool) {s : List α} (u : List α)
    (h : s.dropWhile p ≠ []) : (s ++ u).dropWhile p = s.dropWhile p ++ u := by
  rw [List.dropWhile_append]
  simp [List.isEmpty_iff, h]

/-- When `dropWhile` leaves something of `s`, appending text does not
change `takeWhile`. -/
theorem takeWhile_append_ne {α : Type} (p : α → Bool) {s : List α} (u : List α)
    (h : s.dropWhile p ≠ []) : (s ++ u).takeWhile p = s.takeWhile p := by
  rw [List.takeWhile_append]
  have hlen : (s.takeWhile p).length ≠ s.length := by
    intro hl
    have hsum := length_takeWhile_add_dropWhile p s
    exact h (List.length_eq_zero.mp (by omega))
  simp [hlen]

/-- Characterization of a successful command-token peel. -/
theorem peelCommand_eq_some {s t r : List Char} :
    peelCommand s = some (t, r) ↔
      ∃ c cs, s.dropWhile isWsChar = c :: cs ∧ isCmdLetter c = true ∧
        cs.dropWhile (fun d => !isCmdLetter d) ≠ [] ∧
        t = s.takeWhile isWsChar ++ c :: cs.takeWhile (fun d => !isCmdLetter d) ∧
        r = cs.dropWhile (fun d => !isCmdLetter d) := by
  unfold peelCommand
  constructor
  · intro h
    cases h1 : s.dropWhile isWsChar with
    | nil => rw [h1] at h; exact absurd h (by simp)
    | cons c cs =>
      rw [h1] at h
      simp only at h
      by_cases hc : isCmdLetter c = true
      · rw [if_pos hc] at h
        by_cases hr : cs.dropWhile (fun d => !isCmdLetter d) = []
        · rw [if_pos hr] at h; exact absurd h (by simp)
        · rw [if_neg hr] at h
          have hp := Option.some.inj h
          exact ⟨c, cs, rfl, hc, hr, (congrArg Prod.fst hp).symm,
            (congrArg Prod.snd hp).symm⟩
      · rw [if_neg hc] at h; exact absurd h (by simp)
  · rintro ⟨c, cs, h1, hc, hr, ht, hrr⟩
    rw [h1]
    simp only [if_pos hc, if_neg hr]
    rw [ht, hrr]

/-- A successful command-token peel strictly shrinks the buffer. -/
theorem peelCommand_shrink {s t r : List Char} (h : peelCommand s = some (t, r)) :
    r.length < s.length := by
  obtain ⟨c, cs, h1, _, _, _, hrr⟩ := peelCommand_eq_some.mp h
  have h2 : cs.length + 1 ≤ s.length := by
    have := length_dropWhile_le' isWsChar s
    rw [h1] at this
    simpa using this
  have h3 : r.length ≤ cs.length := hrr ▸ length_dropWhile_le' _ cs
  omega

/-- A successful command-token peel is stable under appending input. -/
theorem peelCommand_stable {s t r : List Char} (u : List Char)
    (h : peelCommand s = some (t, r)) : peelCommand (s ++ u) = some (t, r ++ u) := by
  obtain ⟨c, cs, h1, hc, hr, ht, hrr⟩ := peelCommand_eq_some.mp h
  have hne : s.dropWhile isWsChar ≠ [] := by rw [h1]; simp
  apply peelCommand_eq_some.mpr
  refine ⟨c, cs ++ u, ?_, hc, ?_, ?_, ?_⟩
  · rw [dropWhile_append_ne _ u hne, h1]; rfl
  · rw [dropWhile_append_ne _ u hr]; simp [hr]
  · rw [takeWhile_append_ne _ u hne, takeWhile_append_ne _ u hr, ht]
  · rw [dropWhile_append_ne _ u hr, hrr]

/-- Characterization of a successful subpath peel. -/
theorem peelSubPath_eq_some {s t r : List Char} :
    peelSubPath s = some (t, r) ↔
      ∃ c cs d ds, s.dropWhile isWsChar = c :: cs ∧
        cs.dropWhile (fun x => !isZM x) = d :: ds ∧ isMChar d = true ∧
        t = c :: cs.takeWhile (fun x => !isZM x) ∧ r = d :: ds := by
  unfold peelSubPath
  constructor
  · intro h
    cases h1 : s.dropWhile isWsChar with
    | nil => rw [h1] at h; exact absurd h (by simp)
    | cons c cs =>
      rw [h1] at h
      simp only at h
      cases h2 : cs.dropWhile (fun x => !isZM x) with
      | nil => rw [h2] at h; exact absurd h (by simp)
      | cons d ds =>
        rw [h2] at h
        simp only at h
        by_cases hm : isMChar d = true
        · rw [if_pos hm] at h
          have hp := Option.some.inj h
          exact ⟨c, cs, d, ds, rfl, h2, hm,
            (congrArg Prod.fst hp).symm, (congrArg Prod.snd hp).symm⟩
        · rw [if_neg hm] at h; exact absurd h (by simp)
  · rintro ⟨c, cs, d, ds, h1, h2, hm, ht, hrr⟩
    rw [h1]
    simp only
    rw [h2]
    simp only [if_pos hm]
    rw [ht, hrr]

/-- A successful subpath peel strictly shrinks the buffer. -/
theorem peelSubPath_shrink {s t r : List Char} (h : peelSubPath s = some (t, r)) :
    r.length < s.length := by
  obtain ⟨c, cs, d, ds, h1, h2, _, _, hrr⟩ := peelSubPath_eq_some.mp h
  have h3 : cs.length + 1 ≤ s.length := by
    have := length_dropWhile_le' isWsChar s
    rw [h1] at this
    simpa using this
  have h4 : r.length ≤ cs.length := by
    have := length_dropWhile_le' (fun x => !isZM x) cs
    rw [h2, ← hrr] at this
    exact this
  omega

/-- A successful subpath peel is stable under appending input. -/
theorem peelSubPath_stable {s t r : List Char} (u : List Char)
    (h : peelSubPath s = some (t, r)) : peelSubPath (s ++ u) = some (t, r ++ u) := by
  obtain ⟨c, cs, d, ds, h1, h2, hm, ht, hrr⟩ := peelSubPath_eq_some.mp h
  have hne : s.dropWhile isWsChar ≠ [] := by rw [h1]; simp
  have hne2 : cs.dropWhile (fun x => !isZM x) ≠ [] := by rw [h2]; simp
  apply peelSubPath_eq_some.mpr
  refine ⟨c, cs ++ u, d, ds ++ u, ?_, ?_, hm, ?_, ?_⟩
  · rw [dropWhile_append_ne _ u hne, h1]; rfl
  · rw [dropWhile_append_ne _ u hne2, h2]; rfl
  · rw [takeWhile_append_ne _ u hne2, ht]
  · rw [hrr]; rfl

/-- With enough fuel, the fuelled drain is independent of the exact fuel. -/
theorem drainAux_fuel {peel : List Char → Option (List Char × List Char)}
    (hsh : ∀ {s t r : List Char}, peel s = some (t, r) → r.length < s.length) :
    ∀ (f f' : ℕ) (s : List Char), s.length < f → s.length < f' →
      drainAux peel f s = drainAux peel f' s := by
  intro f
  induction f with
  | zero => intro f' s h _; omega
  | succ f ih =>
    intro f' s h h'
    cases f' with
    | zero => omega
    | succ f' =>
      unfold drainAux
      cases hp : peel s with
      | none => rfl
      | some tr =>
        obtain ⟨t, r⟩ := tr
        have hr := hsh hp
        simp only
        rw [ih f' r (by omega) (by omega)]

/-- The one-step unfolding of `drain`. -/
theorem drain_unfold {peel : List Char → Option (List Char × List Char)}
    (hsh : ∀ {s t r : List Char}, peel s = some (t, r) → r.length < s.length)
    (s : List Char) :
    drain peel s =
      match peel s with
      | none => ([], s)
      | some (t, r) =>
        let (toks, res) := drain peel r
        (t :: toks, res) := by
  unfold drain
  conv_lhs => rw [drainAux]
  cases hp : peel s with
  | none => rfl
  | some tr =>
    obtain ⟨t, r⟩ := tr
    have hr := hsh hp
    simp only
    rw [drainAux_fuel hsh s.length (r.length + 1) r (by omega) (by omega)]

/-- The residual buffer of a drain admits no further peel. -/
theorem drain_res_none {peel : List Char → Option (List Char × List Char)}
    (hsh : ∀ {s t r : List Char}, peel s = some (t, r) → r.length < s.length)
    (s : List Char) : peel (drain peel s).2 = none := by
  generalize hn : s.length = n
  induction n using Nat.strong_induction_on generalizing s with
  | _ n ih =>
    rw [drain_unfold hsh]
    cases hp : peel s with
    | none => exact hp
    | some tr =>
      obtain ⟨t, r⟩ := tr
      have hr := hsh hp
      exact ih r.length (by omega) r rfl

/-- Draining `s ++ u` is draining `s`, then draining the residue extended
by `u` — the key compositionality property behind chunk invariance. -/
theorem drain_append {peel : List Char → Option (List Char × List Char)}
    (hsh : ∀ {s t r : List Char}, peel s = some (t, r) → r.length < s.length)
    (hst : ∀ {s t r : List Char} (u : List Char), peel s = some (t, r) →
      peel (s ++ u) = some (t, r ++ u))
    (s u : List Char) :
    drain peel (s ++ u) =
      ((drain peel s).1 ++ (drain peel ((drain peel s).2 ++ u)).1,
       (drain peel ((drain peel s).2 ++ u)).2) := by
  generalize hn : s.length = n
  induction n using Nat.strong_induction_on generalizing s with
  | _ n ih =>
    cases hp : peel s with
    | none =>
      have hs : drain peel s = ([], s) := by rw [drain_unfold hsh, hp]
      rw [hs]
      simp
    | some tr =>
      obtain ⟨t, r⟩ := tr
      have hr := hsh hp
      have hs : drain peel s = (t :: (drain peel r).1, (drain peel r).2) := by
        rw [drain_unfold hsh, hp]
      have hsu : drain peel (s ++ u) =
          (t :: (drain peel (r ++ u)).1, (drain peel (r ++ u)).2) := by
        rw [drain_unfold hsh, hst u hp]
      rw [hsu, hs, ih r.length (by omega) r rfl]
      simp

/-- Folding chunks through the buffer equals draining their concatenation. -/
theorem drainChunks_flatten {peel : List Char → Option (List Char × List Char)}
    (hsh : ∀ {s t r : List Char}, peel s = some (t, r) → r.length < s.length)
    (hst : ∀ {s t r : List Char} (u : List Char), peel s = some (t, r) →
      peel (s ++ u) = some (t, r ++ u))
    (hnil : peel [] = none)
    (chunks : List (List Char)) :
    drainChunks peel chunks = drain peel chunks.flatten := by
  have key : ∀ (cl : List (List Char)) (acc : List (List Char)) (buf : List Char),
      peel buf = none →
      cl.foldl (fun acc chunk =>
          let (toks, res) := drain peel (acc.2 ++ chunk)
          (acc.1 ++ toks, res)) (acc, buf) =
        (acc ++ (drain peel (buf ++ cl.flatten)).1, (drain peel (buf ++ cl.flatten)).2) := by
    intro cl
    induction cl with
    | nil =>
      intro acc buf hbuf
      have : drain peel buf = ([], buf) := by rw [drain_unfold hsh, hbuf]
      simp [this]
    | cons c rest ih =>
      intro acc buf hbuf
      simp only [List.foldl_cons, List.flatten_cons]
      rw [ih (acc ++ (drain peel (buf ++ c)).1) (drain peel (buf ++ c)).2
        (drain_res_none hsh _)]
      rw [← List.append_assoc buf c rest.flatten]
      rw [drain_append hsh hst (buf ++ c) rest.flatten]
      simp
  unfold drainChunks
  rw [key chunks [] [] hnil]
  simp

/-- `peelCommand` finds nothing in an empty buffer. -/
theorem peelCommand_nil : peelCommand [] = none := rfl

/-- `peelSubPath` finds nothing in an empty buffer. -/
theorem peelSubPath_nil : peelSubPath [] = none := rfl

/-- The token streams cut from any chunking equal those cut from the
concatenated document. -/
theorem tokenize_split_chunk_invariant (chunks : List (List Char)) :
    tokenizeChunks chunks = tokenizeChunks [chunks.flatten] ∧
      splitSubPathTokens chunks = splitSubPathTokens [chunks.flatten] := by
  have h1 : drainChunks peelCommand chunks = drainChunks peelCommand [chunks.flatten] := by
    rw [drainChunks_flatten peelCommand_shrink peelCommand_stable peelCommand_nil,
      drainChunks_flatten peelCommand_shrink peelCommand_stable peelCommand_nil]
    simp
  have h2 : drainChunks peelSubPath chunks = drainChunks peelSubPath [chunks.flatten] := by
    rw [drainChunks_flatten peelSubPath_shrink peelSubPath_stable peelSubPath_nil,
      drainChunks_flatten peelSubPath_shrink peelSubPath_stable peelSubPath_nil]
    simp
  constructor
  · unfold tokenizeChunks
    rw [h1]
  · unfold splitSubPathTokens
    rw [h2]

/-- C4: parsing is chunk-invariant — for every document and every way of
splitting it into chunks (including mid-number and mid-command splits),
`fromSVGPathData` yields exactly the same subpaths/segments and terminal
status as parsing the whole document as a single chunk, and likewise
`pathCommands` yields the same segment sequence.  (Both stream stages
buffer their input and only act on prefixes whose interpretation can no
longer change.) -/
theorem parse_chunk_invariant (chunks : List (List Char)) (startPoint : Pt) :
    fromSVGRun chunks = fromSVGRun [chunks.flatten] ∧
      pathCommandsRun startPoint chunks = pathCommandsRun startPoint [chunks.flatten] := by
  obtain ⟨h1, h2⟩ := tokenize_split_chunk_invariant chunks
  constructor
  · unfold fromSVGRun splitSubPathsRun
    rw [h2]
  · unfold pathCommandsRun
    rw [h1]

/-! ### C8 — double inversion -/

/-- The rewrite takes the supplied endpoint. -/
theorem rwSeg_toPoint (c : Cmd) (q : Pt) : (rwSeg c q).toPoint = q := by
  cases c <;> rfl

/-- Rewriting twice restores the variant data (control points un-swap, the
arc `sweepFlag` double-negates) while setting the endpoint back. -/
theorem rwSeg_rwSeg (c : Cmd) (q : Pt) : rwSeg (rwSeg c q) c.toPoint = c := by
  cases c <;> simp [rwSeg, Cmd.toPoint]

/-- `invCore` preserves length. -/
theorem invCore_length (s : Pt) (cs : List Cmd) : (invCore s cs).length = cs.length := by
  induction cs generalizing s with
  | nil => rfl
  | cons c cs ih => simp [invCore, ih]

/-- `invCore` of a nonempty list is nonempty. -/
theorem invCore_ne_nil (s : Pt) {cs : List Cmd} (h : cs ≠ []) : invCore s cs ≠ [] := by
  intro hc
  apply h
  have := invCore_length s cs
  rw [hc] at this
  exact List.length_eq_zero.mp this.symm

/-- The last element of `invCore` is the rewritten head. -/
theorem invCore_getLast (s : Pt) (c : Cmd) (cs : List Cmd) :
    (invCore s (c :: cs)).getLast? = some (rwSeg c s) := by
  simp [invCore]

/-- Dropping the last element of `invCore` drops the rewritten head. -/
theorem invCore_dropLast (s : Pt) (c : Cmd) (cs : List Cmd) :
    (invCore s (c :: cs)).dropLast = invCore c.toPoint cs := by
  simp [invCore]

/-- `lastTo` over an appended singleton is that singleton's endpoint. -/
theorem lastTo_concat (q : Pt) (xs : List Cmd) (x : Cmd) :
    lastTo q (xs ++ [x]) = x.toPoint := by
  induction xs generalizing q with
  | nil => rfl
  | cons a xs ih => exact ih a.toPoint

/-- `lastTo` over a nonempty `invCore` is the start the core was built
from (the last element is `rwSeg head s`, whose endpoint is `s`). -/
theorem lastTo_invCore (q s : Pt) (c : Cmd) (cs : List Cmd) :
    lastTo q (invCore s (c :: cs)) = s := by
  rw [invCore, lastTo_concat, rwSeg_toPoint]

/-- `lastTo` agrees with the endpoint of `getLastD` (for a default whose
endpoint is the fallback point). -/
theorem lastTo_eq_getLastD (S : Pt) (d : Cmd) (cs : List Cmd) (hd : d.toPoint = S) :
    (cs.getLastD d).toPoint = lastTo S cs := by
  induction cs generalizing S d with
  | nil => exact hd
  | cons c cs ih =>
    rw [List.getLastD_cons]
    exact ih c.toPoint c rfl

/-- `invCore` over an appended singleton peels the singleton to the front. -/
theorem invCore_concat (T : Pt) (xs : List Cmd) (x : Cmd) :
    invCore T (xs ++ [x]) = rwSeg x (lastTo T xs) :: invCore T xs := by
  induction xs generalizing T with
  | nil => rfl
  | cons a xs ih =>
    show invCore a.toPoint (xs ++ [x]) ++ [rwSeg a T] =
      rwSeg x (lastTo a.toPoint xs) :: (invCore a.toPoint xs ++ [rwSeg a T])
    rw [ih]
    rfl

/-- Double application of `invCore` (from the endpoint the first
application reaches) is the identity: the core involution. -/
theorem invCore_invCore (cs : List Cmd) (S : Pt) :
    invCore (lastTo S cs) (invCore S cs) = cs := by
  induction cs generalizing S with
  | nil => rfl
  | cons c cs ih =>
    show invCore (lastTo c.toPoint cs) (invCore c.toPoint cs ++ [rwSeg c S]) = c :: cs
    rw [invCore_concat]
    cases hcs : cs with
    | nil => simp [invCore, lastTo, rwSeg_rwSeg]
    | cons d ds =>
      rw [← hcs]
      have hlast : lastTo (lastTo c.toPoint cs) (invCore c.toPoint cs) = c.toPoint := by
        rw [hcs, lastTo_invCore]
      rw [hlast, rwSeg_rwSeg, ih c.toPoint]

/-- JS `===` can only be true on equal (finite) values. -/
theorem seq_eq_of_true {a b : JSNum} (h : JSNum.seq a b = true) : a = b := by
  cases a <;> cases b <;> simp_all [JSNum.seq]

/-- A true point comparison means the points are equal. -/
theorem ptSEq_eq_of_true {x y : Pt} (h : ptSEq x y = true) : x = y := by
  obtain ⟨x1, x2⟩ := x
  obtain ⟨y1, y2⟩ := y
  simp only [ptSEq, Bool.and_eq_true] at h
  rw [seq_eq_of_true h.1, seq_eq_of_true h.2]

/-- JS `===` is reflexive on finite points (it is not on NaN). -/
theorem ptSEq_self {x : Pt} (h : x.Fin) : ptSEq x x = true := by
  obtain ⟨hx, hy⟩ := h
  obtain ⟨x1, x2⟩ := x
  cases hx1 : x1 <;> cases hx2 : x2 <;> simp_all [ptSEq, JSNum.seq, JSNum.nan]

/-- Distinct points always compare unequal. -/
theorem ptSEq_false_of_ne {x y : Pt} (h : x ≠ y) : ptSEq x y = false := by
  cases hb : ptSEq x y with
  | false => rfl
  | true => exact absurd (ptSEq_eq_of_true hb) h

/-- The reached endpoint of a finite-point subpath is finite. -/
theorem lastTo_fin {S : Pt} {cs : List Cmd} (hS : S.Fin)
    (hc : ∀ c ∈ cs, (Cmd.toPoint c).Fin) : (lastTo S cs).Fin := by
  induction cs generalizing S with
  | nil => exact hS
  | cons c cs ih =>
    exact ih (hc c (List.mem_cons_self c cs)) (fun d hd => hc d (List.mem_cons_of_mem c hd))

/-- The inverter's sentineled `zipWith` pass equals `invCore`. -/
theorem body_eq_invCore (S : Pt) (cs : List Cmd) :
    List.zipWith (fun c n => rwSeg c n.toPoint) (cs.reverse ++ [Cmd.line S])
      ((cs.reverse ++ [Cmd.line S]).tail) = invCore S cs := by
  induction cs using List.reverseRecOn with
  | nil => rfl
  | append_singleton xs x ih =>
    rw [List.reverse_append, List.reverse_singleton]
    cases hrev : xs.reverse with
    | nil =>
      rw [List.reverse_eq_nil_iff.mp hrev]
      rfl
    | cons b l =>
      have hb : b.toPoint = lastTo S xs := by
        have hlast : xs.getLast? = some b := by
          rw [← List.head?_reverse, hrev]
          rfl
        rw [← lastTo_eq_getLastD S (Cmd.line S) xs rfl,
          List.getLastD_eq_getLast?, hlast]
        rfl
      calc List.zipWith (fun c n => rwSeg c n.toPoint)
            ((x :: (b :: l)) ++ [Cmd.line S]) (((x :: (b :: l)) ++ [Cmd.line S]).tail)
          = rwSeg x b.toPoint :: List.zipWith (fun c n => rwSeg c n.toPoint)
              (xs.reverse ++ [Cmd.line S]) ((xs.reverse ++ [Cmd.line S]).tail) := by
            rw [hrev]
            rfl
        _ = rwSeg x (lastTo S xs) :: invCore S xs := by rw [ih, hb]
        _ = invCore S (xs ++ [x]) := (invCore_concat S xs x).symm

/-- `invertSubPath` restated through `lastTo` and `invCore` (for a
nonempty command list). -/
theorem invertSubPath_eq (sp : SubPath) (h : sp.commands ≠ []) :
    invertSubPath sp =
      (let cmds1 := if sp.closed && !(ptSEq (lastTo sp.startPoint sp.commands) sp.startPoint)
          then sp.commands ++ [Cmd.line sp.startPoint] else sp.commands
       let body := invCore sp.startPoint cmds1
       let st := lastTo sp.startPoint cmds1
       let dropLastLine : Bool :=
         match body.getLast? with
         | some (.line p) => ptSEq p st
         | _ => false
       ⟨st, if sp.closed && dropLastLine then body.dropLast else body, sp.closed, none⟩) := by
  have hgl : ∀ cs : List Cmd,
      ((cs.getLastD (Cmd.line sp.startPoint)).toPoint) = lastTo sp.startPoint cs :=
    fun cs => lastTo_eq_getLastD sp.startPoint (Cmd.line sp.startPoint) cs rfl
  unfold invertSubPath
  rw [if_neg h]
  simp only [hgl, body_eq_invCore]


/-- The endpoint of the last command is the reached endpoint. -/
theorem getLast_toPoint (X : Pt) {ys : List Cmd} {c : Cmd} (h : ys.getLast? = some c) :
    c.toPoint = lastTo X ys := by
  have h2 := lastTo_eq_getLastD X (Cmd.line X) ys rfl
  rw [List.getLastD_eq_getLast?, h] at h2
  exact h2

/-- The second inversion of a closed subpath whose commands are an
`invCore X ys` reaching back to its start point `S`: the result is `ys`
with a Line to `X` re-materialized in front when `X ≠ S`, and the trailing
Line (which necessarily lands on `S`) dropped when `ys` ends in a Line. -/
theorem invert_invCore_closed (S X : Pt) (y : Cmd) (ys' : List Cmd)
    (hlast : lastTo X (y :: ys') = S) (hSfin : S.Fin) :
    invertSubPath ⟨S, invCore X (y :: ys'), true, none⟩ =
      ⟨S, (if X = S then [] else [Cmd.line X]) ++
        (if (match (y :: ys').getLast? with
              | some (Cmd.line _) => true
              | _ => false) = true
          then (y :: ys').dropLast else (y :: ys')), true, none⟩ := by
  have hys : (y :: ys') ≠ [] := by simp
  obtain ⟨c, hc⟩ : ∃ c, (y :: ys').getLast? = some c :=
    Option.isSome_iff_exists.mp (List.getLast?_isSome.mpr hys)
  have hcto : c.toPoint = S := (getLast_toPoint X hc).trans hlast
  rw [invertSubPath_eq _ (invCore_ne_nil X hys)]
  have h1 : lastTo S (invCore X (y :: ys')) = X := lastTo_invCore S X y ys'
  have hinv : invCore S (invCore X (y :: ys')) = y :: ys' := by
    conv_lhs => rw [← hlast]
    exact invCore_invCore (y :: ys') X
  by_cases hX : X = S
  · subst hX
    have hpts : ptSEq X X = true := ptSEq_self hSfin
    simp only [h1, hpts, Bool.not_true, Bool.and_false, Bool.false_eq_true, if_false, hinv,
      Bool.true_and, hc, List.nil_append, eq_self_iff_true, if_true]
    cases c with
    | line p =>
      have hp : p = X := hcto
      subst hp
      simp [hpts]
    | quad cp p => rfl
    | cubic c1 c2 p => rfl
    | arc rx ry rot la sw p => rfl
  · have hpt : ptSEq (lastTo S (invCore X (y :: ys'))) S = false := by
      rw [h1]
      exact ptSEq_false_of_ne hX
    have hbody : invCore S (invCore X (y :: ys') ++ [Cmd.line S]) =
        Cmd.line X :: (y :: ys') := by
      rw [invCore_concat, h1, hinv]
      rfl
    have hst : lastTo S (invCore X (y :: ys') ++ [Cmd.line S]) = S :=
      lastTo_concat S _ _
    simp only [hpt, Bool.not_false, Bool.and_true, if_true, hbody, hst, if_neg hX,
      Bool.true_and]
    have hgl : (Cmd.line X :: (y :: ys')).getLast? = some c := by
      rw [List.getLast?_cons_cons, hc]
    simp only [hgl, hc]
    cases c with
    | line p =>
      have hp : p = S := hcto
      subst hp
      simp [ptSEq_self hSfin]
    | quad cp p => rfl
    | cubic c1 c2 p => rfl
    | arc rx ry rot la sw p => rfl

/-- The first inversion of a closed subpath in closed form: the start
becomes the reached endpoint's loop base `S`, the commands become an
`invCore`, with the rewritten head dropped when the head was a Line (its
rewrite necessarily lands on the old start), and the implicit close edge
materialized when the last endpoint missed `S`. -/
theorem invert_closed_first (S : Pt) (c1 : Cmd) (rest : List Cmd) (svg : Option (List Char))
    (hS : S.Fin) :
    invertSubPath ⟨S, c1 :: rest, true, svg⟩ =
      if lastTo S (c1 :: rest) = S then
        (match c1 with
         | Cmd.line _ => ⟨S, invCore c1.toPoint rest, true, none⟩
         | _ => ⟨S, invCore S (c1 :: rest), true, none⟩)
      else
        (match c1 with
         | Cmd.line _ => ⟨S, invCore c1.toPoint (rest ++ [Cmd.line S]), true, none⟩
         | _ => ⟨S, invCore S (c1 :: (rest ++ [Cmd.line S])), true, none⟩) := by
  have hne : (c1 :: rest : List Cmd) ≠ [] := by simp
  rw [invertSubPath_eq _ hne]
  by_cases hL : lastTo S (c1 :: rest) = S
  · have hpt : ptSEq (lastTo S (c1 :: rest)) S = true := by
      rw [hL]
      exact ptSEq_self hS
    simp only [hpt, Bool.not_true, Bool.and_false, Bool.false_eq_true, if_false,
      if_pos hL, Bool.true_and, invCore_getLast]
    cases c1 with
    | line p1 =>
      simp only [rwSeg, hL, ptSEq_self hS, if_true, invCore_dropLast]
    | quad cp p => simp only [rwSeg, hL, Bool.false_eq_true, if_false]
    | cubic ca cb p => simp only [rwSeg, hL, Bool.false_eq_true, if_false]
    | arc rx ry rot la sw p => simp only [rwSeg, hL, Bool.false_eq_true, if_false]
  · have hpt : ptSEq (lastTo S (c1 :: rest)) S = false := ptSEq_false_of_ne hL
    have happ : (c1 :: rest) ++ [Cmd.line S] = c1 :: (rest ++ [Cmd.line S]) := rfl
    have hst : lastTo S (c1 :: (rest ++ [Cmd.line S])) = S :=
      lastTo_concat S (c1 :: rest) (Cmd.line S)
    simp only [hpt, Bool.not_false, Bool.and_true, if_true, if_neg hL, happ, hst,
      invCore_getLast, Bool.true_and]
    cases c1 with
    | line p1 =>
      simp only [rwSeg, ptSEq_self hS, if_true, invCore_dropLast]
    | quad cp p => simp only [rwSeg, Bool.false_eq_true, if_false]
    | cubic ca cb p => simp only [rwSeg, Bool.false_eq_true, if_false]
    | arc rx ry rot la sw p => simp only [rwSeg, Bool.false_eq_true, if_false]

/-- `invert_closed_first` specialized to a Line head. -/
theorem invert_closed_first_line (S p1 : Pt) (rest : List Cmd) (svg : Option (List Char))
    (hS : S.Fin) :
    invertSubPath ⟨S, Cmd.line p1 :: rest, true, svg⟩ =
      if lastTo S (Cmd.line p1 :: rest) = S then ⟨S, invCore p1 rest, true, none⟩
      else ⟨S, invCore p1 (rest ++ [Cmd.line S]), true, none⟩ := by
  rw [invert_closed_first S (Cmd.line p1) rest svg hS]
  by_cases hL : lastTo S (Cmd.line p1 :: rest) = S
  · rw [if_pos hL, if_pos hL]
    rfl
  · rw [if_neg hL, if_neg hL]
    rfl

/-- `invert_closed_first` specialized to a non-Line head. -/
theorem invert_closed_first_nonline (S : Pt) (c1 : Cmd) (rest : List Cmd)
    (svg : Option (List Char)) (hS : S.Fin) (hc1 : ∀ p, c1 ≠ Cmd.line p) :
    invertSubPath ⟨S, c1 :: rest, true, svg⟩ =
      if lastTo S (c1 :: rest) = S then ⟨S, invCore S (c1 :: rest), true, none⟩
      else ⟨S, invCore S (c1 :: (rest ++ [Cmd.line S])), true, none⟩ := by
  rw [invert_closed_first S c1 rest svg hS]
  cases c1 with
  | line p => exact absurd rfl (hc1 p)
  | quad cp p =>
    by_cases hL : lastTo S (Cmd.quad cp p :: rest) = S
    · simp only [if_pos hL]
    · simp only [if_neg hL]
  | cubic ca cb p =>
    by_cases hL : lastTo S (Cmd.cubic ca cb p :: rest) = S
    · simp only [if_pos hL]
    · simp only [if_neg hL]
  | arc rx ry rot la sw p =>
    by_cases hL : lastTo S (Cmd.arc rx ry rot la sw p :: rest) = S
    · simp only [if_pos hL]
    · simp only [if_neg hL]

/-- `invert_invCore_closed` when the underlying list ends in a Line. -/
theorem invert_invCore_closed_lineLast (S X : Pt) (y : Cmd) (ys' : List Cmd) (p : Pt)
    (hlast : lastTo X (y :: ys') = S) (hSfin : S.Fin)
    (hgl : (y :: ys').getLast? = some (Cmd.line p)) :
    invertSubPath ⟨S, invCore X (y :: ys'), true, none⟩ =
      ⟨S, (if X = S then [] else [Cmd.line X]) ++ (y :: ys').dropLast, true, none⟩ := by
  rw [invert_invCore_closed S X y ys' hlast hSfin, hgl]
  rfl

/-- `invert_invCore_closed` when the underlying list does not end in a
Line. -/
theorem invert_invCore_closed_otherLast (S X : Pt) (y : Cmd) (ys' : List Cmd) (c : Cmd)
    (hlast : lastTo X (y :: ys') = S) (hSfin : S.Fin)
    (hgl : (y :: ys').getLast? = some c) (hcl : ∀ p, c ≠ Cmd.line p) :
    invertSubPath ⟨S, invCore X (y :: ys'), true, none⟩ =
      ⟨S, (if X = S then [] else [Cmd.line X]) ++ (y :: ys'), true, none⟩ := by
  rw [invert_invCore_closed S X y ys' hlast hSfin, hgl]
  cases c with
  | line p => exact absurd rfl (hcl p)
  | quad cp p => rfl
  | cubic ca cb p => rfl
  | arc rx ry rot la sw p => rfl

/-- `dropClose` drops a trailing Line landing on the start point. -/
theorem dropClose_drop (S : Pt) (cs : List Cmd) (svg : Option (List Char)) {q : Pt}
    (hgl : cs.getLast? = some (Cmd.line q)) (hq : q = S) :
    dropClose ⟨S, cs, true, svg⟩ = cs.dropLast := by
  unfold dropClose
  simp [hgl, hq]

/-- `dropClose` keeps a trailing Line missing the start point. -/
theorem dropClose_keep_line (S : Pt) (cs : List Cmd) (svg : Option (List Char)) {q : Pt}
    (hgl : cs.getLast? = some (Cmd.line q)) (hq : q ≠ S) :
    dropClose ⟨S, cs, true, svg⟩ = cs := by
  unfold dropClose
  simp [hgl, hq]

/-- `dropClose` keeps a non-Line trailing segment. -/
theorem dropClose_keep_nonline (S : Pt) (cs : List Cmd) (svg : Option (List Char)) {c : Cmd}
    (hgl : cs.getLast? = some c) (hc : ∀ p, c ≠ Cmd.line p) :
    dropClose ⟨S, cs, true, svg⟩ = cs := by
  unfold dropClose
  cases c with
  | line p => exact absurd rfl (hc p)
  | quad cp p => simp [hgl]
  | cubic ca cb p => simp [hgl]
  | arc rx ry rot la sw p => simp [hgl]

/-- `invertNormal` of a closed subpath, as a function of `dropClose`. -/
theorem invertNormal_closed (S : Pt) (cs : List Cmd) (svg : Option (List Char)) :
    invertNormal ⟨S, cs, true, svg⟩ =
      (match dropClose ⟨S, cs, true, svg⟩ with
       | Cmd.line p :: tail => if p = S then tail else dropClose ⟨S, cs, true, svg⟩
       | _ => dropClose ⟨S, cs, true, svg⟩) := rfl

/-- `invertNormal` of an open subpath is its commands. -/
theorem invertNormal_open (S : Pt) (cs : List Cmd) (svg : Option (List Char)) :
    invertNormal ⟨S, cs, false, svg⟩ = cs := rfl

theorem dropLast_cons_concat (c : Cmd) (l : List Cmd) (b : Cmd) :
    (c :: (l ++ [b])).dropLast = c :: l := by
  rw [← List.cons_append, List.dropLast_concat]

/-- C8, amended: for every subpath with no Arc segments and finite
coordinates, double inversion returns the subpath up to the
closing-segment normalization (`dropClose`) plus one extra normalization
the claim does not cover: a closed subpath whose first segment is a Line
landing exactly back on the start point (a zero-length first segment)
loses that segment as well.  `invertNormal` is exactly this normal form;
start point and `closed` flag are always preserved and the cached
`svgPathData` is always cleared. -/
theorem invert_invert_eq_normal (sp : SubPath) (hfin : sp.FinPts) (hna : sp.NoArc) :
    invertSubPath (invertSubPath sp) = ⟨sp.startPoint, invertNormal sp, sp.closed, none⟩ := by
  obtain ⟨S, cs, cl, svg⟩ := sp
  obtain ⟨hS, hcs⟩ := hfin
  clear hna
  cases cs with
  | nil =>
    have h0 : invertSubPath ⟨S, [], cl, svg⟩ = ⟨S, [], cl, none⟩ := by
      unfold invertSubPath
      rfl
    have h1 : invertSubPath ⟨S, ([] : List Cmd), cl, none⟩ = ⟨S, [], cl, none⟩ := by
      unfold invertSubPath
      rfl
    rw [h0, h1]
    cases cl with
    | false => rfl
    | true => rfl
  | cons c1 rest =>
    have hne : (c1 :: rest : List Cmd) ≠ [] := by simp
    cases cl with
    | false =>
      have hq : invertSubPath ⟨S, c1 :: rest, false, svg⟩ =
          ⟨lastTo S (c1 :: rest), invCore S (c1 :: rest), false, none⟩ := by
        rw [invertSubPath_eq _ hne]
        simp only [Bool.false_and, Bool.false_eq_true, if_false]
      rw [hq]
      have hq2 : invertSubPath ⟨lastTo S (c1 :: rest), invCore S (c1 :: rest), false, none⟩ =
          ⟨S, c1 :: rest, false, none⟩ := by
        rw [invertSubPath_eq _ (invCore_ne_nil S hne)]
        simp only [Bool.false_and, Bool.false_eq_true, if_false]
        rw [invCore_invCore, lastTo_invCore]
      rw [hq2, invertNormal_open]
    | true =>
      cases c1 with
      | line p1 =>
        rw [invert_closed_first_line S p1 rest svg hS]
        by_cases hL : lastTo S (Cmd.line p1 :: rest) = S
        · rw [if_pos hL]
          have hlast2 : lastTo p1 rest = S := hL
          cases rest with
          | nil =>
            have hp1 : p1 = S := hlast2
            have he : invertSubPath ⟨S, invCore p1 ([] : List Cmd), true, none⟩ =
                ⟨S, [], true, none⟩ := by
              unfold invertSubPath
              rfl
            rw [he]
            have hn : invertNormal ⟨S, [Cmd.line p1], true, svg⟩ = [] := by
              rw [invertNormal_closed, dropClose_drop S _ svg (by rfl) hp1]
              rfl
            rw [hn]
          | cons r rs =>
            obtain ⟨cn, hcn⟩ : ∃ c, (r :: rs).getLast? = some c :=
              Option.isSome_iff_exists.mp (List.getLast?_isSome.mpr (by simp))
            have hcnto : cn.toPoint = S := (getLast_toPoint p1 hcn).trans hlast2
            have hgl : (Cmd.line p1 :: r :: rs).getLast? = some cn := by
              rw [List.getLast?_cons_cons]
              exact hcn
            cases cn with
            | line q =>
              have hq : q = S := hcnto
              rw [invert_invCore_closed_lineLast S p1 r rs q hlast2 hS hcn]
              have hn : invertNormal ⟨S, Cmd.line p1 :: r :: rs, true, svg⟩ =
                  (if p1 = S then [] else [Cmd.line p1]) ++ (r :: rs).dropLast := by
                rw [invertNormal_closed, dropClose_drop S _ svg hgl hq,
                  List.dropLast_cons₂]
                by_cases hp : p1 = S
                · simp [hp]
                · simp [hp]
              rw [hn]
            | quad ca p =>
              rw [invert_invCore_closed_otherLast S p1 r rs _ hlast2 hS hcn
                (fun p h => Cmd.noConfusion h)]
              have hn : invertNormal ⟨S, Cmd.line p1 :: r :: rs, true, svg⟩ =
                  (if p1 = S then [] else [Cmd.line p1]) ++ (r :: rs) := by
                rw [invertNormal_closed,
                  dropClose_keep_nonline S _ svg hgl (fun p h => Cmd.noConfusion h)]
                by_cases hp : p1 = S
                · simp [hp]
                · simp [hp]
              rw [hn]
            | cubic ca cb p =>
              rw [invert_invCore_closed_otherLast S p1 r rs _ hlast2 hS hcn
                (fun p h => Cmd.noConfusion h)]
              have hn : invertNormal ⟨S, Cmd.line p1 :: r :: rs, true, svg⟩ =
                  (if p1 = S then [] else [Cmd.line p1]) ++ (r :: rs) := by
                rw [invertNormal_closed,
                  dropClose_keep_nonline S _ svg hgl (fun p h => Cmd.noConfusion h)]
                by_cases hp : p1 = S
                · simp [hp]
                · simp [hp]
              rw [hn]
            | arc rx ry rot la sw p =>
              rw [invert_invCore_closed_otherLast S p1 r rs _ hlast2 hS hcn
                (fun p h => Cmd.noConfusion h)]
              have hn : invertNormal ⟨S, Cmd.line p1 :: r :: rs, true, svg⟩ =
                  (if p1 = S then [] else [Cmd.line p1]) ++ (r :: rs) := by
                rw [invertNormal_closed,
                  dropClose_keep_nonline S _ svg hgl (fun p h => Cmd.noConfusion h)]
                by_cases hp : p1 = S
                · simp [hp]
                · simp [hp]
              rw [hn]
        · rw [if_neg hL]
          cases rest with
          | nil =>
            have hp1 : p1 ≠ S := hL
            simp only [List.nil_append]
            rw [invert_invCore_closed_lineLast S p1 (Cmd.line S) [] S (by rfl) hS (by rfl)]
            have hn : invertNormal ⟨S, [Cmd.line p1], true, svg⟩ = [Cmd.line p1] := by
              rw [invertNormal_closed, dropClose_keep_line S _ svg (by rfl) hp1]
              simp [hp1]
            rw [hn]
            simp [hp1]
          | cons r rs =>
            simp only [List.cons_append]
            have hlast2 : lastTo p1 (r :: (rs ++ [Cmd.line S])) = S :=
              lastTo_concat p1 (r :: rs) (Cmd.line S)
            have hgl2 : (r :: (rs ++ [Cmd.line S])).getLast? = some (Cmd.line S) :=
              List.getLast?_concat (r :: rs)
            rw [invert_invCore_closed_lineLast S p1 r (rs ++ [Cmd.line S]) S hlast2 hS hgl2]
            have hdl : (r :: (rs ++ [Cmd.line S])).dropLast = r :: rs :=
              dropLast_cons_concat r rs (Cmd.line S)
            rw [hdl]
            obtain ⟨cn, hcn⟩ : ∃ c, (r :: rs).getLast? = some c :=
              Option.isSome_iff_exists.mp (List.getLast?_isSome.mpr (by simp))
            have hcnto : cn.toPoint = lastTo S (Cmd.line p1 :: r :: rs) :=
              getLast_toPoint p1 hcn
            have hgl : (Cmd.line p1 :: r :: rs).getLast? = some cn := by
              rw [List.getLast?_cons_cons]
              exact hcn
            have hdc : dropClose ⟨S, Cmd.line p1 :: r :: rs, true, svg⟩ =
                Cmd.line p1 :: r :: rs := by
              cases cn with
              | line q =>
                have hq : q ≠ S := by
                  intro h
                  exact hL (hcnto.symm.trans (h ▸ rfl))
                exact dropClose_keep_line S _ svg hgl hq
              | quad ca p =>
                exact dropClose_keep_nonline S _ svg hgl (fun p h => Cmd.noConfusion h)
              | cubic ca cb p =>
                exact dropClose_keep_nonline S _ svg hgl (fun p h => Cmd.noConfusion h)
              | arc rx ry rot la sw p =>
                exact dropClose_keep_nonline S _ svg hgl (fun p h => Cmd.noConfusion h)
            have hn : invertNormal ⟨S, Cmd.line p1 :: r :: rs, true, svg⟩ =
                (if p1 = S then [] else [Cmd.line p1]) ++ (r :: rs) := by
              rw [invertNormal_closed, hdc]
              by_cases hp : p1 = S
              · simp [hp]
              · simp [hp]
            rw [hn]
      | quad cp p =>
        rw [invert_closed_first_nonline S (Cmd.quad cp p) rest svg hS
          (fun q h => Cmd.noConfusion h)]
        by_cases hL : lastTo S (Cmd.quad cp p :: rest) = S
        · rw [if_pos hL]
          obtain ⟨cn, hcn⟩ : ∃ c, (Cmd.quad cp p :: rest).getLast? = some c :=
            Option.isSome_iff_exists.mp (List.getLast?_isSome.mpr hne)
          have hcnto : cn.toPoint = S := (getLast_toPoint S hcn).trans hL
          cases cn with
          | line q =>
            cases rest with
            | nil => exact absurd (Option.some.inj hcn) (fun h => Cmd.noConfusion h)
            | cons r rs =>
              rw [invert_invCore_closed_lineLast S S (Cmd.quad cp p) (r :: rs) q hL hS hcn]
              have hn : invertNormal ⟨S, Cmd.quad cp p :: r :: rs, true, svg⟩ =
                  (Cmd.quad cp p :: r :: rs).dropLast := by
                rw [invertNormal_closed, dropClose_drop S _ svg hcn hcnto,
                  List.dropLast_cons₂]
              rw [hn, List.dropLast_cons₂]
              simp
          | quad ca pb =>
            rw [invert_invCore_closed_otherLast S S (Cmd.quad cp p) rest _ hL hS hcn
              (fun q h => Cmd.noConfusion h)]
            have hn : invertNormal ⟨S, Cmd.quad cp p :: rest, true, svg⟩ =
                Cmd.quad cp p :: rest := by
              rw [invertNormal_closed,
                dropClose_keep_nonline S _ svg hcn (fun q h => Cmd.noConfusion h)]
            rw [hn]
            simp
          | cubic ca cb pb =>
            rw [invert_invCore_closed_otherLast S S (Cmd.quad cp p) rest _ hL hS hcn
              (fun q h => Cmd.noConfusion h)]
            have hn : invertNormal ⟨S, Cmd.quad cp p :: rest, true, svg⟩ =
                Cmd.quad cp p :: rest := by
              rw [invertNormal_closed,
                dropClose_keep_nonline S _ svg hcn (fun q h => Cmd.noConfusion h)]
            rw [hn]
            simp
          | arc rx ry rot la sw pb =>
            rw [invert_invCore_closed_otherLast S S (Cmd.quad cp p) rest _ hL hS hcn
              (fun q h => Cmd.noConfusion h)]
            have hn : invertNormal ⟨S, Cmd.quad cp p :: rest, true, svg⟩ =
                Cmd.quad cp p :: rest := by
              rw [invertNormal_closed,
                dropClose_keep_nonline S _ svg hcn (fun q h => Cmd.noConfusion h)]
            rw [hn]
            simp
        · rw [if_neg hL]
          simp only [List.cons_append]
          have hlast2 : lastTo S (Cmd.quad cp p :: (rest ++ [Cmd.line S])) = S :=
            lastTo_concat S (Cmd.quad cp p :: rest) (Cmd.line S)
          have hgl2 : (Cmd.quad cp p :: (rest ++ [Cmd.line S])).getLast? = some (Cmd.line S) :=
            List.getLast?_concat (Cmd.quad cp p :: rest)
          rw [invert_invCore_closed_lineLast S S (Cmd.quad cp p) (rest ++ [Cmd.line S]) S
            hlast2 hS hgl2]
          have hdl : (Cmd.quad cp p :: (rest ++ [Cmd.line S])).dropLast =
              Cmd.quad cp p :: rest :=
            dropLast_cons_concat _ rest (Cmd.line S)
          rw [hdl]
          obtain ⟨cn, hcn⟩ : ∃ c, (Cmd.quad cp p :: rest).getLast? = some c :=
            Option.isSome_iff_exists.mp (List.getLast?_isSome.mpr hne)
          have hcnto : cn.toPoint = lastTo S (Cmd.quad cp p :: rest) := getLast_toPoint S hcn
          have hdc : dropClose ⟨S, Cmd.quad cp p :: rest, true, svg⟩ =
              Cmd.quad cp p :: rest := by
            cases cn with
            | line q =>
              have hq : q ≠ S := by
                intro h
                exact hL (hcnto.symm.trans (h ▸ rfl))
              exact dropClose_keep_line S _ svg hcn hq
            | quad ca pb =>
              exact dropClose_keep_nonline S _ svg hcn (fun q h => Cmd.noConfusion h)
            | cubic ca cb pb =>
              exact dropClose_keep_nonline S _ svg hcn (fun q h => Cmd.noConfusion h)
            | arc rx ry rot la sw pb =>
              exact dropClose_keep_nonline S _ svg hcn (fun q h => Cmd.noConfusion h)
          have hn : invertNormal ⟨S, Cmd.quad cp p :: rest, true, svg⟩ =
              Cmd.quad cp p :: rest := by
            rw [invertNormal_closed, hdc]
          rw [hn]
          simp
      | cubic ca cb p =>
        rw [invert_closed_first_nonline S (Cmd.cubic ca cb p) rest svg hS
          (fun q h => Cmd.noConfusion h)]
        by_cases hL : lastTo S (Cmd.cubic ca cb p :: rest) = S
        · rw [if_pos hL]
          obtain ⟨cn, hcn⟩ : ∃ c, (Cmd.cubic ca cb p :: rest).getLast? = some c :=
            Option.isSome_iff_exists.mp (List.getLast?_isSome.mpr hne)
          have hcnto : cn.toPoint = S := (getLast_toPoint S hcn).trans hL
          cases cn with
          | line q =>
            cases rest with
            | nil => exact absurd (Option.some.inj hcn) (fun h => Cmd.noConfusion h)
            | cons r rs =>
              rw [invert_invCore_closed_lineLast S S (Cmd.cubic ca cb p) (r :: rs) q hL hS hcn]
              have hn : invertNormal ⟨S, Cmd.cubic ca cb p :: r :: rs, true, svg⟩ =
                  (Cmd.cubic ca cb p :: r :: rs).dropLast := by
                rw [invertNormal_closed, dropClose_drop S _ svg hcn hcnto,
                  List.dropLast_cons₂]
              rw [hn, List.dropLast_cons₂]
              simp
          | quad cc pb =>
            rw [invert_invCore_closed_otherLast S S (Cmd.cubic ca cb p) rest _ hL hS hcn
              (fun q h => Cmd.noConfusion h)]
            have hn : invertNormal ⟨S, Cmd.cubic ca cb p :: rest, true, svg⟩ =
                Cmd.cubic ca cb p :: rest := by
              rw [invertNormal_closed,
                dropClose_keep_nonline S _ svg hcn (fun q h => Cmd.noConfusion h)]
            rw [hn]
            simp
          | cubic cc cd pb =>
            rw [invert_invCore_closed_otherLast S S (Cmd.cubic ca cb p) rest _ hL hS hcn
              (fun q h => Cmd.noConfusion h)]
            have hn : invertNormal ⟨S, Cmd.cubic ca cb p :: rest, true, svg⟩ =
                Cmd.cubic ca cb p :: rest := by
              rw [invertNormal_closed,
                dropClose_keep_nonline S _ svg hcn (fun q h => Cmd.noConfusion h)]
            rw [hn]
            simp
          | arc rx ry rot la sw pb =>
            rw [invert_invCore_closed_otherLast S S (Cmd.cubic ca cb p) rest _ hL hS hcn
              (fun q h => Cmd.noConfusion h)]
            have hn : invertNormal ⟨S, Cmd.cubic ca cb p :: rest, true, svg⟩ =
                Cmd.cubic ca cb p :: rest := by
              rw [invertNormal_closed,
                dropClose_keep_nonline S _ svg hcn (fun q h => Cmd.noConfusion h)]
            rw [hn]
            simp
        · rw [if_neg hL]
          simp only [List.cons_append]
          have hlast2 : lastTo S (Cmd.cubic ca cb p :: (rest ++ [Cmd.line S])) = S :=
            lastTo_concat S (Cmd.cubic ca cb p :: rest) (Cmd.line S)
          have hgl2 : (Cmd.cubic ca cb p :: (rest ++ [Cmd.line S])).getLast? =
              some (Cmd.line S) :=
            List.getLast?_concat (Cmd.cubic ca cb p :: rest)
          rw [invert_invCore_closed_lineLast S S (Cmd.cubic ca cb p) (rest ++ [Cmd.line S]) S
            hlast2 hS hgl2]
          have hdl : (Cmd.cubic ca cb p :: (rest ++ [Cmd.line S])).dropLast =
              Cmd.cubic ca cb p :: rest :=
            dropLast_cons_concat _ rest (Cmd.line S)
          rw [hdl]
          obtain ⟨cn, hcn⟩ : ∃ c, (Cmd.cubic ca cb p :: rest).getLast? = some c :=
            Option.isSome_iff_exists.mp (List.getLast?_isSome.mpr hne)
          have hcnto : cn.toPoint = lastTo S (Cmd.cubic ca cb p :: rest) := getLast_toPoint S hcn
          have hdc : dropClose ⟨S, Cmd.cubic ca cb p :: rest, true, svg⟩ =
              Cmd.cubic ca cb p :: rest := by
            cases cn with
            | line q =>
              have hq : q ≠ S := by
                intro h
                exact hL (hcnto.symm.trans (h ▸ rfl))
              exact dropClose_keep_line S _ svg hcn hq
            | quad cc pb =>
              exact dropClose_keep_nonline S _ svg hcn (fun q h => Cmd.noConfusion h)
            | cubic cc cd pb =>
              exact dropClose_keep_nonline S _ svg hcn (fun q h => Cmd.noConfusion h)
            | arc rx ry rot la sw pb =>
              exact dropClose_keep_nonline S _ svg hcn (fun q h => Cmd.noConfusion h)
          have hn : invertNormal ⟨S, Cmd.cubic ca cb p :: rest, true, svg⟩ =
              Cmd.cubic ca cb p :: rest := by
            rw [invertNormal_closed, hdc]
          rw [hn]
          simp
      | arc rx0 ry0 rot0 la0 sw0 p =>
        rw [invert_closed_first_nonline S (Cmd.arc rx0 ry0 rot0 la0 sw0 p) rest svg hS
          (fun q h => Cmd.noConfusion h)]
        by_cases hL : lastTo S (Cmd.arc rx0 ry0 rot0 la0 sw0 p :: rest) = S
        · rw [if_pos hL]
          obtain ⟨cn, hcn⟩ : ∃ c, (Cmd.arc rx0 ry0 rot0 la0 sw0 p :: rest).getLast? = some c :=
            Option.isSome_iff_exists.mp (List.getLast?_isSome.mpr hne)
          have hcnto : cn.toPoint = S := (getLast_toPoint S hcn).trans hL
          cases cn with
          | line q =>
            cases rest with
            | nil => exact absurd (Option.some.inj hcn) (fun h => Cmd.noConfusion h)
            | cons r rs =>
              rw [invert_invCore_closed_lineLast S S (Cmd.arc rx0 ry0 rot0 la0 sw0 p)
                (r :: rs) q hL hS hcn]
              have hn : invertNormal ⟨S, Cmd.arc rx0 ry0 rot0 la0 sw0 p :: r :: rs, true, svg⟩ =
                  (Cmd.arc rx0 ry0 rot0 la0 sw0 p :: r :: rs).dropLast := by
                rw [invertNormal_closed, dropClose_drop S _ svg hcn hcnto,
                  List.dropLast_cons₂]
              rw [hn, List.dropLast_cons₂]
              simp
          | quad cc pb =>
            rw [invert_invCore_closed_otherLast S S (Cmd.arc rx0 ry0 rot0 la0 sw0 p) rest _
              hL hS hcn (fun q h => Cmd.noConfusion h)]
            have hn : invertNormal ⟨S, Cmd.arc rx0 ry0 rot0 la0 sw0 p :: rest, true, svg⟩ =
                Cmd.arc rx0 ry0 rot0 la0 sw0 p :: rest := by
              rw [invertNormal_closed,
                dropClose_keep_nonline S _ svg hcn (fun q h => Cmd.noConfusion h)]
            rw [hn]
            simp
          | cubic cc cd pb =>
            rw [invert_invCore_closed_otherLast S S (Cmd.arc rx0 ry0 rot0 la0 sw0 p) rest _
              hL hS hcn (fun q h => Cmd.noConfusion h)]
            have hn : invertNormal ⟨S, Cmd.arc rx0 ry0 rot0 la0 sw0 p :: rest, true, svg⟩ =
                Cmd.arc rx0 ry0 rot0 la0 sw0 p :: rest := by
              rw [invertNormal_closed,
                dropClose_keep_nonline S _ svg hcn (fun q h => Cmd.noConfusion h)]
            rw [hn]
            simp
          | arc rx1 ry1 rot1 la1 sw1 pb =>
            rw [invert_invCore_closed_otherLast S S (Cmd.arc rx0 ry0 rot0 la0 sw0 p) rest _
              hL hS hcn (fun q h => Cmd.noConfusion h)]
            have hn : invertNormal ⟨S, Cmd.arc rx0 ry0 rot0 la0 sw0 p :: rest, true, svg⟩ =
                Cmd.arc rx0 ry0 rot0 la0 sw0 p :: rest := by
              rw [invertNormal_closed,
                dropClose_keep_nonline S _ svg hcn (fun q h => Cmd.noConfusion h)]
            rw [hn]
            simp
        · rw [if_neg hL]
          simp only [List.cons_append]
          have hlast2 : lastTo S (Cmd.arc rx0 ry0 rot0 la0 sw0 p :: (rest ++ [Cmd.line S])) = S :=
            lastTo_concat S (Cmd.arc rx0 ry0 rot0 la0 sw0 p :: rest) (Cmd.line S)
          have hgl2 : (Cmd.arc rx0 ry0 rot0 la0 sw0 p :: (rest ++ [Cmd.line S])).getLast? =
              some (Cmd.line S) :=
            List.getLast?_concat (Cmd.arc rx0 ry0 rot0 la0 sw0 p :: rest)
          rw [invert_invCore_closed_lineLast S S (Cmd.arc rx0 ry0 rot0 la0 sw0 p)
            (rest ++ [Cmd.line S]) S hlast2 hS hgl2]
          have hdl : (Cmd.arc rx0 ry0 rot0 la0 sw0 p :: (rest ++ [Cmd.line S])).dropLast =
              Cmd.arc rx0 ry0 rot0 la0 sw0 p :: rest :=
            dropLast_cons_concat _ rest (Cmd.line S)
          rw [hdl]
          obtain ⟨cn, hcn⟩ : ∃ c, (Cmd.arc rx0 ry0 rot0 la0 sw0 p :: rest).getLast? = some c :=
            Option.isSome_iff_exists.mp (List.getLast?_isSome.mpr hne)
          have hcnto : cn.toPoint = lastTo S (Cmd.arc rx0 ry0 rot0 la0 sw0 p :: rest) :=
            getLast_toPoint S hcn
          have hdc : dropClose ⟨S, Cmd.arc rx0 ry0 rot0 la0 sw0 p :: rest, true, svg⟩ =
              Cmd.arc rx0 ry0 rot0 la0 sw0 p :: rest := by
            cases cn with
            | line q =>
              have hq : q ≠ S := by
                intro h
                exact hL (hcnto.symm.trans (h ▸ rfl))
              exact dropClose_keep_line S _ svg hcn hq
            | quad cc pb =>
              exact dropClose_keep_nonline S _ svg hcn (fun q h => Cmd.noConfusion h)
            | cubic cc cd pb =>
              exact dropClose_keep_nonline S _ svg hcn (fun q h => Cmd.noConfusion h)
            | arc rx1 ry1 rot1 la1 sw1 pb =>
              exact dropClose_keep_nonline S _ svg hcn (fun q h => Cmd.noConfusion h)
          have hn : invertNormal ⟨S, Cmd.arc rx0 ry0 rot0 la0 sw0 p :: rest, true, svg⟩ =
              Cmd.arc rx0 ry0 rot0 la0 sw0 p :: rest := by
            rw [invertNormal_closed, hdc]
          rw [hn]
          simp

/-- C8, counterexample to the claim as stated: the closed subpath with
start (0,0) and segments [Line (0,0), Line (5,5)] has no Arc and all
points finite, and double inversion preserves the start point, but the
doubly-inverted segment list is not equal to the original even after the
closing-segment normalization (`dropClose`) on both sides: the inverter
additionally deletes the zero-length leading Line. -/
theorem invert_invert_not_dropClose_invariant :
    (invertSubPath (invertSubPath
        ⟨⟨some 0, some 0⟩,
         [Cmd.line ⟨some 0, some 0⟩, Cmd.line ⟨some 5, some 5⟩], true, none⟩)).startPoint =
      (⟨some 0, some 0⟩ : Pt) ∧
    (invertSubPath (invertSubPath
        ⟨⟨some 0, some 0⟩,
         [Cmd.line ⟨some 0, some 0⟩, Cmd.line ⟨some 5, some 5⟩], true, none⟩)).commands =
      [Cmd.line ⟨some 5, some 5⟩] ∧
    dropClose (invertSubPath (invertSubPath
        ⟨⟨some 0, some 0⟩,
         [Cmd.line ⟨some 0, some 0⟩, Cmd.line ⟨some 5, some 5⟩], true, none⟩)) ≠
      dropClose ⟨⟨some 0, some 0⟩,
         [Cmd.line ⟨some 0, some 0⟩, Cmd.line ⟨some 5, some 5⟩], true, none⟩ := by
  decide

/-- C8, witness: the amended theorem applied to a concrete closed
triangle subpath (all points finite, no Arc); its double inversion is the
subpath itself with the cached text cleared (here `invertNormal` keeps
the whole segment list). -/
theorem invert_invert_eq_normal_witness :
    SubPath.FinPts ⟨⟨some 0, some 0⟩,
        [Cmd.line ⟨some 100, some 100⟩, Cmd.line ⟨some 0, some 100⟩], true, none⟩ ∧
    SubPath.NoArc ⟨⟨some 0, some 0⟩,
        [Cmd.line ⟨some 100, some 100⟩, Cmd.line ⟨some 0, some 100⟩], true, none⟩ ∧
    invertSubPath (invertSubPath ⟨⟨some 0, some 0⟩,
        [Cmd.line ⟨some 100, some 100⟩, Cmd.line ⟨some 0, some 100⟩], true, none⟩) =
      ⟨⟨some 0, some 0⟩,
        invertNormal ⟨⟨some 0, some 0⟩,
          [Cmd.line ⟨some 100, some 100⟩, Cmd.line ⟨some 0, some 100⟩], true, none⟩,
        true, none⟩ :=
  ⟨⟨⟨by decide, by decide⟩,
    by
      intro c hc
      simp only [List.mem_cons, List.not_mem_nil, or_false] at hc
      rcases hc with h | h <;> subst h <;> exact ⟨by decide, by decide⟩⟩,
   by
     intro c hc rx ry rot la sw p
     simp only [List.mem_cons, List.not_mem_nil, or_false] at hc
     rcases hc with h | h <;> subst h <;> exact fun he => Cmd.noConfusion he,
   invert_invert_eq_normal
     ⟨⟨some 0, some 0⟩,
        [Cmd.line ⟨some 100, some 100⟩, Cmd.line ⟨some 0, some 100⟩], true, none⟩
     ⟨⟨by decide, by decide⟩,
      by
        intro c hc
        simp only [List.mem_cons, List.not_mem_nil, or_false] at hc
        rcases hc with h | h <;> subst h <;> exact ⟨by decide, by decide⟩⟩
     (by
       intro c hc rx ry rot la sw p
       simp only [List.mem_cons, List.not_mem_nil, or_false] at hc
       rcases hc with h | h <;> subst h <;> exact fun he => Cmd.noConfusion he)⟩

/-! ### C1 — number of cubic segments for the small quarter-circle arc -/

theorem arcLoop_length (c : RPt) (rot rx ry : ℝ) (d : ℝ) (n : ℕ) (a : ℝ) :
    (arcLoop c rot rx ry a d n).length = n := by
  induction n generalizing a with
  | zero => rfl
  | succ k ih => simp [arcLoop, ih]

theorem c1_sinphi : arcSinphi 0 = 0 := by
  unfold arcSinphi
  simp

theorem c1_cosphi : arcCosphi 0 = 1 := by
  unfold arcCosphi
  simp

theorem c1_pxp : arcPxp ⟨0, 0⟩ ⟨50, 0⟩ 0 = -25 := by
  unfold arcPxp
  rw [c1_sinphi, c1_cosphi]
  norm_num

theorem c1_pyp : arcPyp ⟨0, 0⟩ ⟨50, 0⟩ 0 = 0 := by
  unfold arcPyp
  rw [c1_sinphi, c1_cosphi]
  norm_num

theorem c1_fix : arcFixedRadii 100 100 (-25) 0 = (100, 100) := by
  unfold arcFixedRadii
  norm_num [abs_of_nonneg]

theorem c1_rx : (arcFixedRadii 100 100 (-25) 0).1 = 100 := by rw [c1_fix]

theorem c1_ry : (arcFixedRadii 100 100 (-25) 0).2 = 100 := by rw [c1_fix]

theorem c1_rad : arcRadicant 100 100 (-25) 0 false false = -Real.sqrt 15 := by
  unfold arcRadicant
  norm_num

theorem c1_cp : arcCenterP 100 100 (-25) 0 false false = (0, -(25 * Real.sqrt 15)) := by
  unfold arcCenterP
  rw [c1_rad, Prod.mk.injEq]
  constructor <;> ring

theorem c1_vx1 : arcVx1 100 100 (-25) 0 false false = -(1/4) := by
  unfold arcVx1
  rw [c1_cp]
  norm_num

theorem c1_vy1 : arcVy1 100 100 (-25) 0 false false = Real.sqrt 15 / 4 := by
  unfold arcVy1
  rw [c1_cp]
  norm_num
  ring

theorem c1_vx2 : arcVx2 100 100 (-25) 0 false false = 1/4 := by
  unfold arcVx2
  rw [c1_cp]
  norm_num

theorem c1_vy2 : arcVy2 100 100 (-25) 0 false false = Real.sqrt 15 / 4 := by
  unfold arcVy2
  rw [c1_cp]
  norm_num
  ring

theorem c1_a0 : arcA0 100 100 (-25) 0 false false = -Real.arccos (7/8) := by
  have hs : Real.sqrt 15 * Real.sqrt 15 = 15 := Real.mul_self_sqrt (by norm_num)
  have hpos : 0 < Real.sqrt 15 := Real.sqrt_pos.mpr (by norm_num)
  unfold arcA0
  rw [c1_vx1, c1_vy1, c1_vx2, c1_vy2]
  have hcross : (-(1/4) : ℝ) * (Real.sqrt 15 / 4) - Real.sqrt 15 / 4 * (1/4) < 0 := by nlinarith
  rw [if_pos hcross]
  have hdot : (-(1/4) : ℝ) * (1/4) + Real.sqrt 15 / 4 * (Real.sqrt 15 / 4) = 7/8 := by
    field_simp
    linarith [hs]
  rw [hdot]
  unfold acosClamped
  have hc1 : ¬((7/8 : ℝ) > 1) := by norm_num
  have hc2 : ¬((7/8 : ℝ) < -1) := by norm_num
  rw [if_neg hc1, if_neg hc2]
  ring

theorem c1_ang2 : arcAng2 100 100 (-25) 0 false false = 2 * Real.pi - Real.arccos (7/8) := by
  have hA : 0 < Real.arccos (7/8) := Real.arccos_pos.mpr (by norm_num)
  unfold arcAng2
  rw [c1_a0]
  simp only [Bool.false_eq_true, if_false]
  rw [if_neg (show ¬(-Real.arccos (7/8) > 0) by linarith)]
  rw [if_pos (show -Real.arccos (7/8) < 0 by linarith)]
  ring

theorem c1_segments : arcSegments (2 * Real.pi - Real.arccos (7/8)) = 4 := by
  have hpi := Real.pi_pos
  have hA1 : 0 < Real.arccos (7/8) := Real.arccos_pos.mpr (by norm_num)
  have hA2 : Real.arccos (7/8) < Real.pi / 2 := Real.arccos_lt_pi_div_two.mpr (by norm_num)
  have hhalf : (0 : ℝ) < Real.pi / 2 := by linarith
  have habs : |2 * Real.pi - Real.arccos (7/8)| = 2 * Real.pi - Real.arccos (7/8) :=
    abs_of_pos (by linarith)
  have hr3 : 3 < (2 * Real.pi - Real.arccos (7/8)) / (Real.pi / 2) := by
    rw [lt_div_iff₀ hhalf]
    linarith
  have hr4 : (2 * Real.pi - Real.arccos (7/8)) / (Real.pi / 2) < 4 := by
    rw [div_lt_iff₀ hhalf]
    linarith
  have hsnap : ¬(|1 - (2 * Real.pi - Real.arccos (7/8)) / (Real.pi / 2)| < 1 / 10 ^ 7) := by
    rw [abs_of_neg (show (1:ℝ) - (2 * Real.pi - Real.arccos (7/8)) / (Real.pi / 2) < 0 by
      linarith)]
    push_neg
    have h10 : (1:ℝ) / 10 ^ 7 ≤ 2 := by norm_num
    linarith
  have hceil : ⌈(2 * Real.pi - Real.arccos (7/8)) / (Real.pi / 2)⌉ = 4 := by
    rw [Int.ceil_eq_iff]
    constructor
    · push_cast
      linarith
    · push_cast
      linarith
  simp only [arcSegments]
  rw [habs, if_neg hsnap, hceil]
  decide

/-- C1: for the arc `{rx:100, ry:100, rot:0, large:false, sweep:false,
to:(50,0)}` from start `(0,0)`, the arc normalizer emits FOUR cubic
segments, not one: the sweep-flag adjustment turns the raw
`-arccos(7/8)` sweep into the positive representative
`2π - arccos(7/8)` (between 3 and 4 quarter turns), so the segment
count `max(ceil(|ang2|/(π/2)), 1)` is 4. -/
theorem curvifyArc_simple_arc_emits_four_cubics :
    (curvifyArc ⟨0, 0⟩ 100 100 0 false false ⟨50, 0⟩).length = 4 := by
  have h1 : ¬((100:ℝ) = 0 ∨ (100:ℝ) = 0) := by norm_num
  have h2 : ¬((-25:ℝ) = 0 ∧ (0:ℝ) = 0) := by norm_num
  simp only [curvifyArc]
  rw [c1_pxp, c1_pyp, if_neg h1, if_neg h2, c1_rx, c1_ry, c1_ang2, c1_segments]
  rw [arcLoop_length]
  rfl

/-! ### C6 — last emitted point of a rotated arc -/

theorem c6_sinphi : arcSinphi 90 = 1 := by
  unfold arcSinphi
  rw [show (90:ℝ) * Real.pi / 180 = Real.pi / 2 by ring, Real.sin_pi_div_two]

theorem c6_cosphi : arcCosphi 90 = Real.sqrt 2 / 2 := by
  unfold arcCosphi
  rw [show (90:ℝ) * Real.pi / 360 = Real.pi / 4 by ring, Real.cos_pi_div_four]

theorem c6_pxp : arcPxp ⟨0, 0⟩ ⟨2, 0⟩ 90 = -(Real.sqrt 2 / 2) := by
  unfold arcPxp
  rw [c6_sinphi, c6_cosphi]
  norm_num
  ring

theorem c6_pyp : arcPyp ⟨0, 0⟩ ⟨2, 0⟩ 90 = 0 := by
  unfold arcPyp
  rw [c6_sinphi, c6_cosphi]
  norm_num

theorem c6_fix : arcFixedRadii 1 1 (-(Real.sqrt 2 / 2)) 0 = (1, 1) := by
  have hs2 : Real.sqrt 2 * Real.sqrt 2 = 2 := Real.mul_self_sqrt (by norm_num)
  unfold arcFixedRadii
  have hcond : ¬((-(Real.sqrt 2 / 2)) ^ 2 / |(1:ℝ)| ^ 2 + (0:ℝ) ^ 2 / |(1:ℝ)| ^ 2 > 1) := by
    rw [abs_one]
    push_neg
    nlinarith
  rw [if_neg hcond, abs_one]

theorem c6_rx : (arcFixedRadii 1 1 (-(Real.sqrt 2 / 2)) 0).1 = 1 := by rw [c6_fix]

theorem c6_ry : (arcFixedRadii 1 1 (-(Real.sqrt 2 / 2)) 0).2 = 1 := by rw [c6_fix]

theorem c6_rad : arcRadicant 1 1 (-(Real.sqrt 2 / 2)) 0 false false = -1 := by
  have hsq : (-(Real.sqrt 2 / 2)) ^ 2 = 1/2 := by
    rw [neg_sq, div_pow, Real.sq_sqrt (show (0:ℝ) ≤ 2 by norm_num)]
    norm_num
  simp only [arcRadicant]
  rw [hsq]
  norm_num [Real.sqrt_one]

theorem c6_cp : arcCenterP 1 1 (-(Real.sqrt 2 / 2)) 0 false false = (0, -(Real.sqrt 2 / 2)) := by
  unfold arcCenterP
  rw [c6_rad, Prod.mk.injEq]
  constructor <;> ring

theorem c6_center :
    arcCenter ⟨0, 0⟩ ⟨2, 0⟩ 90 1 1 (-(Real.sqrt 2 / 2)) 0 false false =
      ⟨1 + Real.sqrt 2 / 2, -(1/2)⟩ := by
  have hs2 : Real.sqrt 2 * Real.sqrt 2 = 2 := Real.mul_self_sqrt (by norm_num)
  unfold arcCenter
  rw [c6_cp, c6_sinphi, c6_cosphi]
  dsimp only
  rw [RPt.mk.injEq]
  constructor
  · ring
  · linear_combination (-(1:ℝ)/4) * hs2

theorem c6_vx1 : arcVx1 1 1 (-(Real.sqrt 2 / 2)) 0 false false = -(Real.sqrt 2 / 2) := by
  unfold arcVx1
  rw [c6_cp]
  norm_num

theorem c6_vy1 : arcVy1 1 1 (-(Real.sqrt 2 / 2)) 0 false false = Real.sqrt 2 / 2 := by
  unfold arcVy1
  rw [c6_cp]
  norm_num

theorem c6_vx2 : arcVx2 1 1 (-(Real.sqrt 2 / 2)) 0 false false = Real.sqrt 2 / 2 := by
  unfold arcVx2
  rw [c6_cp]
  norm_num

theorem c6_vy2 : arcVy2 1 1 (-(Real.sqrt 2 / 2)) 0 false false = Real.sqrt 2 / 2 := by
  unfold arcVy2
  rw [c6_cp]
  norm_num

theorem c6_ang1 : arcAng1 1 1 (-(Real.sqrt 2 / 2)) 0 false false = 3 * Real.pi / 4 := by
  have hs0 : (0:ℝ) ≤ Real.sqrt 2 / 2 := by positivity
  have hs1 : Real.sqrt 2 / 2 ≤ 1 := by
    nlinarith [Real.sq_sqrt (show (0:ℝ) ≤ 2 by norm_num), Real.sqrt_nonneg 2]
  unfold arcAng1
  rw [c6_vy1, c6_vx1]
  rw [if_neg (show ¬(Real.sqrt 2 / 2 < 0) by linarith)]
  unfold acosClamped
  rw [if_neg (show ¬(-(Real.sqrt 2 / 2) > 1) by linarith)]
  rw [if_neg (show ¬(-(Real.sqrt 2 / 2) < -1) by linarith)]
  rw [Real.arccos_neg]
  have harc : Real.arccos (Real.sqrt 2 / 2) = Real.pi / 4 := by
    rw [← Real.cos_pi_div_four]
    exact Real.arccos_cos (by positivity) (by linarith [Real.pi_pos])
  rw [harc]
  ring

theorem c6_a0 : arcA0 1 1 (-(Real.sqrt 2 / 2)) 0 false false = -(Real.pi / 2) := by
  have hs2 : Real.sqrt 2 * Real.sqrt 2 = 2 := Real.mul_self_sqrt (by norm_num)
  have hspos : 0 < Real.sqrt 2 := Real.sqrt_pos.mpr (by norm_num)
  unfold arcA0
  rw [c6_vx1, c6_vy1, c6_vx2, c6_vy2]
  have hcross : -(Real.sqrt 2 / 2) * (Real.sqrt 2 / 2) - Real.sqrt 2 / 2 * (Real.sqrt 2 / 2) < 0 := by
    nlinarith
  rw [if_pos hcross]
  have hdot : -(Real.sqrt 2 / 2) * (Real.sqrt 2 / 2) + Real.sqrt 2 / 2 * (Real.sqrt 2 / 2) = 0 := by
    ring
  rw [hdot]
  unfold acosClamped
  rw [if_neg (show ¬((0:ℝ) > 1) by norm_num)]
  rw [if_neg (show ¬((0:ℝ) < -1) by norm_num)]
  rw [Real.arccos_zero]
  ring

theorem c6_ang2 : arcAng2 1 1 (-(Real.sqrt 2 / 2)) 0 false false = 3 * Real.pi / 2 := by
  have hpi := Real.pi_pos
  unfold arcAng2
  rw [c6_a0]
  simp only [Bool.false_eq_true, if_false]
  rw [if_neg (show ¬(-(Real.pi / 2) > 0) by linarith)]
  rw [if_pos (show -(Real.pi / 2) < 0 by linarith)]
  ring

theorem c6_segments : arcSegments (3 * Real.pi / 2) = 3 := by
  have hpi := Real.pi_pos
  have habs : |3 * Real.pi / 2| = 3 * Real.pi / 2 := abs_of_pos (by linarith)
  have hr : 3 * Real.pi / 2 / (Real.pi / 2) = 3 := by
    rw [div_eq_iff (by linarith : Real.pi / 2 ≠ 0)]
    ring
  have hsnap : ¬(|(1:ℝ) - 3| < 1 / 10 ^ 7) := by
    rw [show (1:ℝ) - 3 = -2 by norm_num, abs_neg, abs_two]
    norm_num
  have hceil : ⌈(3:ℝ)⌉ = 3 := by
    rw [Int.ceil_eq_iff]
    constructor <;> norm_num
  simp only [arcSegments]
  rw [habs, hr, if_neg hsnap, hceil]
  decide

theorem arcCubicAt_toPoint (c : RPt) (rot rx ry a d : ℝ) :
    RCmd.toPoint (arcCubicAt c rot rx ry a d) =
      arcGetPoint c rot rx ry (Real.cos (a + d)) (Real.sin (a + d)) := rfl

/-- C6: for the arc `{rx:1, ry:1, rot:90, large:false, sweep:false,
to:(2,0)}` from start `(0,0)`, the last cubic segment emitted by the arc
normalizer ends at `(3/2, √2/2)`, which is NOT the arc's endpoint
`(2,0)`: the `π/360` slip in `cosphi` and the `lastPoint.x - toPoint.y`
slip in `pyp` displace the computed center and angles for every nonzero
rotation. -/
theorem curvifyArc_rot90_final_point_mismatch :
    ((curvifyArc ⟨0, 0⟩ 1 1 90 false false ⟨2, 0⟩).getLast?).map RCmd.toPoint =
      some ⟨3/2, Real.sqrt 2 / 2⟩ ∧
    (⟨3/2, Real.sqrt 2 / 2⟩ : RPt) ≠ ⟨2, 0⟩ := by
  constructor
  · have hspos : 0 < Real.sqrt 2 := Real.sqrt_pos.mpr (by norm_num)
    have h1 : ¬((1:ℝ) = 0 ∨ (1:ℝ) = 0) := by norm_num
    have h2 : ¬(-(Real.sqrt 2 / 2) = 0 ∧ (0:ℝ) = 0) := by
      intro hh
      nlinarith [hh.1]
    simp only [curvifyArc]
    rw [c6_pxp, c6_pyp, if_neg h1, if_neg h2, c6_rx, c6_ry, c6_center, c6_ang1, c6_ang2,
      c6_segments]
    rw [show ((3:ℤ).toNat) = 3 from rfl]
    rw [show 3 * Real.pi / 2 / ((3:ℕ) : ℝ) = Real.pi / 2 by push_cast; ring]
    have hlist : arcLoop ⟨1 + Real.sqrt 2 / 2, -(1/2)⟩ 90 1 1 (3 * Real.pi / 4) (Real.pi / 2) 3 =
        [arcCubicAt ⟨1 + Real.sqrt 2 / 2, -(1/2)⟩ 90 1 1 (3 * Real.pi / 4) (Real.pi / 2),
         arcCubicAt ⟨1 + Real.sqrt 2 / 2, -(1/2)⟩ 90 1 1 (3 * Real.pi / 4 + Real.pi / 2)
           (Real.pi / 2),
         arcCubicAt ⟨1 + Real.sqrt 2 / 2, -(1/2)⟩ 90 1 1 (3 * Real.pi / 4 + Real.pi / 2 + Real.pi / 2)
           (Real.pi / 2)] := rfl
    rw [hlist]
    simp only [List.getLast?_cons_cons, List.getLast?_singleton, Option.map_some']
    rw [arcCubicAt_toPoint]
    rw [show 3 * Real.pi / 4 + Real.pi / 2 + Real.pi / 2 + Real.pi / 2 =
      Real.pi / 4 + 2 * Real.pi by ring]
    rw [Real.cos_add_two_pi, Real.sin_add_two_pi, Real.cos_pi_div_four, Real.sin_pi_div_four]
    have hs2 : Real.sqrt 2 * Real.sqrt 2 = 2 := Real.mul_self_sqrt (by norm_num)
    unfold arcGetPoint
    rw [c6_sinphi, c6_cosphi]
    dsimp only
    rw [Option.some.injEq, RPt.mk.injEq]
    constructor
    · linear_combination ((1:ℝ)/4) * hs2
    · linear_combination ((1:ℝ)/4) * hs2
  · intro h
    have hx := congrArg RPt.x h
    norm_num at hx
